import Mathlib

/-! Verification development for the FBX-to-ITP mesh conversion core
(FBX2ITP.cpp): skin-influence packing, vertex deduplication with
triangle winding reversal, bone registration and hierarchy
construction, and blend-shape delta extraction.  Floating point
values are modelled by exact rationals; the FBX SDK scene graph,
matrices and geometry-element oracles are modelled as abstract
parameters, matching the interfaces the code consumes.
-/

namespace Fbx2Itp

/-- Two-component vector (float components modelled as rationals);
models `Vector2`. -/
structure Vec2 where
  x : ℚ
  y : ℚ
deriving DecidableEq

/-- Three-component vector (float components modelled as rationals);
models `Vector3`. -/
structure Vec3 where
  x : ℚ
  y : ℚ
  z : ℚ
deriving DecidableEq

/-- The zero 3-vector. -/
def vzero3 : Vec3 := ⟨0, 0, 0⟩

/-- Componentwise subtraction, modelling `Vector3 operator-`. -/
instance : Sub Vec3 := ⟨fun a b => ⟨a.x - b.x, a.y - b.y, a.z - b.z⟩⟩

/-! ## Skin influence packing (`ReadSkin`, lines 239-279)

The per-control-point packing loop: sort influences by descending
weight, take the strongest `min 4 count`, quantize the weights to
bytes with the final taken slot forced to `max 0 (255 - acc)`. -/

/-- Rounding as `std::round` does (half away from zero), on rationals. -/
def roundQ (q : ℚ) : ℤ := if 0 ≤ q then ⌊q + 1/2⌋ else -⌊-q + 1/2⌋

/-- The `static_cast<uint8_t>` applied to the computed byte value. -/
def toByte (z : ℤ) : ℕ := (z % 256).toNat

/-- The packing loop of `ReadSkin` over the taken (already sorted)
influences: for each influence except the last, the byte is
`round (weight / total * 255)`; the last taken influence is forced to
`255 - acc` clamped at `0`.  Produces the `(boneByte, weightByte)`
pairs actually written. -/
def packLoop (total : ℚ) : List (ℕ × ℚ) → ℤ → List (ℕ × ℕ)
  | [], _ => []
  | [p], acc => [(p.1, toByte (max (255 - acc) 0))]
  | p :: q :: rest, acc =>
      let byteVal := roundQ (p.2 / total * 255)
      (p.1, toByte byteVal) :: packLoop total (q :: rest) (acc + byteVal)

/-- Pad the packed slots with `(0, 0)` up to the fixed 4 slots
(`b` and `w` are initialised `{0,0,0,0}` and only `take` slots are
written). -/
def padTo4 (l : List ℕ) : List ℕ := l ++ List.replicate (4 - l.length) 0

/-- Packing of one control point's influence list as done by
`ReadSkin`: if the list is empty the slots stay all zero; otherwise
take the strongest `min 4 count`, compute their total raw weight, and
if it is positive run the quantisation loop. -/
def packSorted (inf : List (ℕ × ℚ)) : List ℕ × List ℕ :=
  if inf = [] then (List.replicate 4 0, List.replicate 4 0)
  else
    let taken := inf.take 4
    let total := (taken.map (·.2)).sum
    if total ≤ 0 then (List.replicate 4 0, List.replicate 4 0)
    else
      let packed := packLoop total taken 0
      (padTo4 (packed.map (·.1)), padTo4 (packed.map (·.2)))

/-- The four packed bone bytes. -/
def packedBones (inf : List (ℕ × ℚ)) : List ℕ := (packSorted inf).1

/-- The four packed weight bytes. -/
def packedWeights (inf : List (ℕ × ℚ)) : List ℕ := (packSorted inf).2

/-- Sum of the four packed weight bytes. -/
def weightByteSum (inf : List (ℕ × ℚ)) : ℕ := (packedWeights inf).sum

/-- The accumulated value `acc` just before the final taken slot:
the sum of the rounded bytes of all taken influences except the
last. -/
def accNonLast (inf : List (ℕ × ℚ)) : ℤ :=
  let taken := inf.take 4
  let total := (taken.map (·.2)).sum
  (taken.dropLast.map (fun p => roundQ (p.2 / total * 255))).sum

/-- What `std::sort` with comparator `a.second > b.second` guarantees:
that adjacent elements satisfy `¬ (next.2 > prev.2)`, i.e. weights are
nonincreasing.  Any permutation of the input satisfying this is an
admissible output. -/
def isSortedDescW : List (ℕ × ℚ) → Bool
  | [] => true
  | [_] => true
  | a :: b :: l => decide (b.2 ≤ a.2) && isSortedDescW (b :: l)

/-- The sorted order the spec asks for: descending by weight and
stable, so that among equal weights the first-registered bone wins.
Stated from the spec's words, to compare against what `std::sort` is
actually required to produce. -/
def specStableSortDesc (l : List (ℕ × ℚ)) : List (ℕ × ℚ) :=
  l.insertionSort (fun a b => b.2 ≤ a.2)

/-! ### Packing lemmas -/

theorem roundQ_nonneg {q : ℚ} (h : 0 ≤ q) : 0 ≤ roundQ q := by
  simp only [roundQ, if_pos h]
  exact Int.le_floor.mpr (by push_cast; linarith)

theorem roundQ_le_255 {q : ℚ} (h0 : 0 ≤ q) (h : q ≤ 255) : roundQ q ≤ 255 := by
  simp only [roundQ, if_pos h0]
  have hlt : ⌊q + 1/2⌋ < 256 := Int.floor_lt.mpr (by push_cast; linarith)
  omega

theorem toByte_of_range {z : ℤ} (h0 : 0 ≤ z) (h : z ≤ 255) : (toByte z : ℤ) = z := by
  unfold toByte
  rw [Int.emod_eq_of_lt h0 (by omega), Int.toNat_of_nonneg h0]

/-- The bone bytes written by the packing loop are exactly the bone
indices of the taken influences, in order. -/
theorem packLoop_bones (total : ℚ) :
    ∀ (l : List (ℕ × ℚ)) (acc : ℤ), (packLoop total l acc).map (·.1) = l.map (·.1)
  | [], _ => rfl
  | [p], _ => rfl
  | p :: q :: rest, acc => by
      simp only [packLoop, List.map_cons, List.map]
      simpa using packLoop_bones total (q :: rest) (acc + roundQ (p.2 / total * 255))

/-- Sum of the weight bytes written by the packing loop: the final
slot's forced value `max (255 - acc) 0` makes the overall sum
`S + max (255 - (acc + S)) 0` where `S` is the sum of the rounded
bytes of the non-final slots. -/
theorem packLoop_weight_sum (total : ℚ) (htot : 0 < total) :
    ∀ (l : List (ℕ × ℚ)) (acc : ℤ), l ≠ [] →
    (∀ p ∈ l, 0 < p.2 ∧ p.2 ≤ total) → 0 ≤ acc →
    (((((packLoop total l acc).map (·.2)).sum : ℕ)) : ℤ) =
      (l.dropLast.map (fun p => roundQ (p.2 / total * 255))).sum +
        max (255 - (acc + (l.dropLast.map (fun p => roundQ (p.2 / total * 255))).sum)) 0
  | [], _, hne, _, _ => absurd rfl hne
  | [p], acc, _, _, hacc => by
      have h1 : (0:ℤ) ≤ max (255 - acc) 0 := le_max_right _ _
      have h2 : max (255 - acc) 0 ≤ 255 := by omega
      simp [packLoop, toByte_of_range h1 h2]
  | p :: q :: rest, acc, _, hw, hacc => by
      have hp := hw p (by simp)
      have hq0 : 0 ≤ p.2 / total * 255 :=
        mul_nonneg (div_nonneg (le_of_lt hp.1) (le_of_lt htot)) (by norm_num)
      have hq1 : p.2 / total * 255 ≤ 255 := by
        have : p.2 / total ≤ 1 := (div_le_one htot).mpr hp.2
        linarith
      have hb0 : 0 ≤ roundQ (p.2 / total * 255) := roundQ_nonneg hq0
      have hb1 : roundQ (p.2 / total * 255) ≤ 255 := roundQ_le_255 hq0 hq1
      have IH := packLoop_weight_sum total htot (q :: rest)
        (acc + roundQ (p.2 / total * 255)) (by simp)
        (fun r hr => hw r (List.mem_cons_of_mem p hr)) (by omega)
      simp only [packLoop, List.map_cons, List.sum_cons, List.dropLast_cons₂] at IH ⊢
      rw [Nat.cast_add, toByte_of_range hb0 hb1, IH]
      omega

theorem isSortedDescW_head_le :
    ∀ (a : ℕ × ℚ) (l : List (ℕ × ℚ)), isSortedDescW (a :: l) = true →
      ∀ p ∈ a :: l, p.2 ≤ a.2
  | _, [], _, p, hp => by
      rcases List.mem_singleton.mp hp with rfl; exact le_refl _
  | a, b :: l, hs, p, hp => by
      have hab : b.2 ≤ a.2 ∧ isSortedDescW (b :: l) = true := by
        simpa [isSortedDescW] using hs
      rcases List.mem_cons.mp hp with rfl | hp2
      · exact le_refl _
      · exact le_trans (isSortedDescW_head_le b l hab.2 p hp2) hab.1

theorem take_weight_le_total {inf : List (ℕ × ℚ)} (hpos : ∀ p ∈ inf, 0 < p.2)
    {p : ℕ × ℚ} (hp : p ∈ inf.take 4) : p.2 ≤ ((inf.take 4).map (·.2)).sum := by
  refine List.single_le_sum (fun x hx => ?_) _ (List.mem_map_of_mem (·.2) hp)
  rcases List.mem_map.mp hx with ⟨r, hr, rfl⟩
  exact le_of_lt (hpos r (List.mem_of_mem_take hr))

theorem total_pos {inf : List (ℕ × ℚ)} (hne : inf ≠ [])
    (hpos : ∀ p ∈ inf, 0 < p.2) : 0 < ((inf.take 4).map (·.2)).sum := by
  rcases inf with _ | ⟨p, rest⟩
  · exact absurd rfl hne
  · have h1 : 0 < p.2 := hpos p (by simp)
    have h2 : 0 ≤ ((rest.take 3).map (·.2)).sum := by
      refine List.sum_nonneg fun x hx => ?_
      rcases List.mem_map.mp hx with ⟨r, hr, rfl⟩
      exact le_of_lt (hpos r (List.mem_cons_of_mem p (List.mem_of_mem_take hr)))
    simp only [List.take, List.map_cons, List.sum_cons]
    linarith

/-- Behaviour of `packSorted` on a nonempty positive influence list:
the empty-check and the `total ≤ 0` check both fall through to the
packing loop. -/
theorem packSorted_eq {inf : List (ℕ × ℚ)} (hne : inf ≠ [])
    (hpos : ∀ p ∈ inf, 0 < p.2) :
    packSorted inf =
      (padTo4 ((inf.take 4).map (·.1)),
       padTo4 ((packLoop ((inf.take 4).map (·.2)).sum (inf.take 4) 0).map (·.2))) := by
  have ht := total_pos hne hpos
  unfold packSorted
  rw [if_neg hne, if_neg (not_le.mpr ht)]
  simp only [packLoop_bones]

theorem take4_ne_nil {inf : List (ℕ × ℚ)} (hne : inf ≠ []) : inf.take 4 ≠ [] := by
  rcases inf with _ | ⟨p, rest⟩
  · exact absurd rfl hne
  · simp [List.take]

/-- C1 (amended): for every control point whose influence list is
nonempty (all raw influences have positive weight; the list is the
descending-sorted one the packer consumes), the 4 packed weight bytes
sum to `max 255 A`, where `A` is the accumulated value of the rounded
bytes of all taken slots but the last; the last slot is forced to
`max (255 - A) 0`, so the sum is exactly 255 whenever `A ≤ 255` but
can be 256 when rounding pushes `A` past 255.  For a control point
with no positive-weight influence, all 4 bone bytes and all 4 weight
bytes are 0. -/
theorem c1_packed_weight_sum (inf : List (ℕ × ℚ)) (hne : inf ≠ [])
    (hpos : ∀ p ∈ inf, 0 < p.2) (hsorted : isSortedDescW inf = true) :
    ((weightByteSum inf : ℤ) = max 255 (accNonLast inf)) ∧
    packedBones [] = [0, 0, 0, 0] ∧ packedWeights [] = [0, 0, 0, 0] := by
  refine ⟨?_, by decide, by decide⟩
  have ht := total_pos hne hpos
  unfold weightByteSum packedWeights
  rw [packSorted_eq hne hpos]
  have hsum : ∀ l : List ℕ, (padTo4 l).sum = l.sum := by intro l; simp [padTo4]
  rw [hsum]
  have hmem : ∀ p ∈ inf.take 4, 0 < p.2 ∧ p.2 ≤ ((inf.take 4).map (·.2)).sum :=
    fun p hp => ⟨hpos p (List.mem_of_mem_take hp), take_weight_le_total hpos hp⟩
  have hloop := packLoop_weight_sum _ ht (inf.take 4) 0 (take4_ne_nil hne) hmem (le_refl 0)
  rw [hloop]
  simp only [accNonLast]
  omega

/-- Witness for C1 (amended) at the influence list
`[(3, 3), (7, 1)]`: both weights positive, sorted descending. -/
theorem c1_packed_weight_sum_witness :
    (([(3, (3:ℚ)), (7, 1)] : List (ℕ × ℚ)) ≠ [] ∧
      (∀ p ∈ ([(3, (3:ℚ)), (7, 1)] : List (ℕ × ℚ)), 0 < p.2) ∧
      isSortedDescW [(3, (3:ℚ)), (7, 1)] = true) ∧
    ((weightByteSum [(3, (3:ℚ)), (7, 1)] : ℤ) =
        max 255 (accNonLast [(3, (3:ℚ)), (7, 1)])) ∧
    packedBones [] = [0, 0, 0, 0] ∧ packedWeights [] = [0, 0, 0, 0] :=
  ⟨⟨by decide, by decide, by decide⟩,
    c1_packed_weight_sum [(3, (3:ℚ)), (7, 1)] (by decide) (by decide) (by decide)⟩

/-- C1 counterexample: on the sorted, all-positive influence list with
raw weights (848, 213, 213, 1), the rounded non-final bytes are
170 + 43 + 43 = 256, the forced final byte clamps to 0, and the four
packed weight bytes sum to 256, not 255. -/
theorem c1_counterexample :
    (([(0, (848:ℚ)), (1, 213), (2, 213), (3, 1)] : List (ℕ × ℚ)) ≠ []) ∧
    isSortedDescW [(0, (848:ℚ)), (1, 213), (2, 213), (3, 1)] = true ∧
    ([(0, (848:ℚ)), (1, 213), (2, 213), (3, 1)].all fun p => decide (0 < p.2)) = true ∧
    weightByteSum [(0, (848:ℚ)), (1, 213), (2, 213), (3, 1)] = 256 := by
  refine ⟨by decide, by decide, by decide, ?_⟩
  norm_num [weightByteSum, packedWeights, packSorted, packLoop, roundQ, toByte, padTo4] <;>
    decide

/-- C4 (amended): on any admissible `std::sort` output `out` (a
permutation of the raw influence list that is sorted by nonincreasing
weight — the order among equal weights is not specified by
`std::sort`, so stable first-registered-wins tie-breaking is not
guaranteed), the packer takes the top `min 4 count` influences, the
packed bone bytes are their bone indices in sorted order (padded with
zeros), and slot 0 holds a bone of maximal raw weight among the taken
subset. -/
theorem c4_ranking_amended (raw out : List (ℕ × ℚ)) (hperm : raw.Perm out)
    (hne : out ≠ []) (hpos : ∀ p ∈ out, 0 < p.2)
    (hsorted : isSortedDescW out = true) :
    packedBones out = (out.take 4).map (·.1) ++ List.replicate (4 - min 4 out.length) 0 ∧
    (packedBones out).getD 0 0 = (out.headD (0, 0)).1 ∧
    ∀ p ∈ out.take 4, p.2 ≤ (out.headD (0, 0)).2 := by
  have heq : packedBones out = padTo4 ((out.take 4).map (·.1)) := by
    unfold packedBones; rw [packSorted_eq hne hpos]
  refine ⟨?_, ?_, ?_⟩
  · rw [heq]; unfold padTo4; rw [List.length_map, List.length_take]
  · rcases out with _ | ⟨p, rest⟩
    · exact absurd rfl hne
    · rw [heq]; simp [padTo4]
  · intro p hp
    rcases out with _ | ⟨a, rest⟩
    · exact absurd rfl hne
    · simpa using isSortedDescW_head_le a rest hsorted p (List.mem_of_mem_take hp)

/-- Witness for C4 (amended) at the sorted list `[(7, 3), (5, 1)]`
(a permutation of the raw list `[(5, 1), (7, 3)]`). -/
theorem c4_ranking_amended_witness :
    (List.Perm [(5, (1:ℚ)), (7, 3)] [(7, (3:ℚ)), (5, 1)] ∧
      ([(7, (3:ℚ)), (5, 1)] : List (ℕ × ℚ)) ≠ [] ∧
      (∀ p ∈ ([(7, (3:ℚ)), (5, 1)] : List (ℕ × ℚ)), 0 < p.2) ∧
      isSortedDescW [(7, (3:ℚ)), (5, 1)] = true) ∧
    (packedBones [(7, (3:ℚ)), (5, 1)] =
        ([(7, (3:ℚ)), (5, 1)].take 4).map (·.1) ++
          List.replicate (4 - min 4 ([(7, (3:ℚ)), (5, 1)] : List (ℕ × ℚ)).length) 0 ∧
      (packedBones [(7, (3:ℚ)), (5, 1)]).getD 0 0 =
        (([(7, (3:ℚ)), (5, 1)] : List (ℕ × ℚ)).headD (0, 0)).1 ∧
      ∀ p ∈ ([(7, (3:ℚ)), (5, 1)] : List (ℕ × ℚ)).take 4,
        p.2 ≤ (([(7, (3:ℚ)), (5, 1)] : List (ℕ × ℚ)).headD (0, 0)).2) :=
  ⟨⟨by decide, by decide, by decide, by decide⟩,
    c4_ranking_amended [(5, (1:ℚ)), (7, 3)] [(7, (3:ℚ)), (5, 1)]
      (by decide) (by decide) (by decide) (by decide)⟩

/-- C4 counterexample: the raw influence list `[(5, 1), (7, 1)]` has
two equal weights with bone 5 registered first.  The permutation
`[(7, 1), (5, 1)]` is sorted by nonincreasing weight, hence an
admissible `std::sort` output, yet differs from the stable descending
sort `[(5, 1), (7, 1)]` the spec prescribes; packing it puts bone 7 in
slot 0 where stable first-registered-wins tie-breaking would put
bone 5. -/
theorem c4_counterexample :
    List.Perm [(5, (1:ℚ)), (7, 1)] [(7, (1:ℚ)), (5, 1)] ∧
    isSortedDescW [(7, (1:ℚ)), (5, 1)] = true ∧
    specStableSortDesc [(5, (1:ℚ)), (7, 1)] = [(5, 1), (7, 1)] ∧
    ([(7, (1:ℚ)), (5, 1)] : List (ℕ × ℚ)) ≠ specStableSortDesc [(5, (1:ℚ)), (7, 1)] ∧
    (packedBones [(7, (1:ℚ)), (5, 1)]).getD 0 0 = 7 ∧
    (packedBones (specStableSortDesc [(5, (1:ℚ)), (7, 1)])).getD 0 0 = 5 := by
  refine ⟨by decide, by decide, by decide, by decide, ?_, ?_⟩ <;>
    norm_num [packedBones, packSorted, packLoop, roundQ, toByte, padTo4,
      specStableSortDesc, List.insertionSort, List.orderedInsert] <;> decide

/-! ## Vertex deduplication (`ProcessMeshToItp`, lines 383-453)

The corner pass: assemble a candidate `VertexData` per polygon corner,
deduplicate through an exact-equality map, and write the resolved
index into the output triangle at slot `2 - v`. -/

/-- The vertex value type (`VertexData` in VertexFormat.h), compared
field-by-field by `operator==`. -/
structure VertexData where
  pos : Vec3
  norm : Vec3
  tan : Vec3
  bones : List ℕ
  weights : List ℕ
  uv : Vec2
deriving DecidableEq

/-- One polygon corner as delivered by the external oracles: the
control-point index (`GetPolygonVertex`), the control-point position,
and the optional per-corner normal / tangent / uv with their presence
flags (`FbxHelper::GetNormalAt` etc.). -/
structure CornerSample where
  cp : ℕ
  pos : Vec3
  norm : Option Vec3
  tan : Option Vec3
  uv : Option Vec2
deriving DecidableEq

/-- Per-mesh context for vertex assembly: whether skinning is on and
the per-control-point packed bone / weight bytes from `ReadSkin`. -/
structure MeshCtx where
  hasSkin : Bool
  ctrlBones : List (List ℕ)
  ctrlWeights : List (List ℕ)
deriving DecidableEq

/-- Corner-to-vertex assembly (lines 393-435): position always; zero
vector substituted for an absent normal / tangent; `v` flipped as
`1 - v` when a uv is present, else zero; the packed skin bytes copied
when skinning is on and the control point indexes into the packed
arrays, else zero. -/
def assembleVertex (ctx : MeshCtx) (c : CornerSample) : VertexData :=
  { pos := c.pos
    norm := c.norm.getD vzero3
    tan := c.tan.getD vzero3
    bones :=
      if ctx.hasSkin ∧ c.cp < ctx.ctrlBones.length then ctx.ctrlBones.getD c.cp [0, 0, 0, 0]
      else [0, 0, 0, 0]
    weights :=
      if ctx.hasSkin ∧ c.cp < ctx.ctrlBones.length then ctx.ctrlWeights.getD c.cp [0, 0, 0, 0]
      else [0, 0, 0, 0]
    uv :=
      match c.uv with
      | some u => ⟨u.x, 1 - u.y⟩
      | none => ⟨0, 0⟩ }

/-- State of the corner pass: the `vertexMap` hash map (modelled as an
association list in insertion order), the vertex buffer `out->verts`,
and the pushes into the control-point map `out->vertexMap` in push
order. -/
structure DedupState where
  assoc : List (VertexData × ℕ)
  verts : List VertexData
  vmapPush : List (ℕ × ℕ)
deriving DecidableEq

/-- Lookup in the vertex map (`vertexMap.find(vert)`). -/
def mapFind (m : List (VertexData × ℕ)) (v : VertexData) : Option ℕ :=
  (m.find? (fun p => p.1 = v)).map (·.2)

/-- One corner of the dedup loop (lines 437-449): on a hit reuse the
mapped index; on a miss the new index is `vertexMap.size()`, the
vertex is appended to the buffer, and the index is appended to the
control point's entry of the control-point map. -/
def dedupStep (s : DedupState) (cp : ℕ) (v : VertexData) : DedupState × ℕ :=
  match mapFind s.assoc v with
  | some k => (s, k)
  | none =>
      let k := s.assoc.length
      ({ assoc := s.assoc ++ [(v, k)],
         verts := s.verts ++ [v],
         vmapPush := s.vmapPush ++ [(cp, k)] }, k)

/-- The corner pass over a flat corner sequence, returning the final
state and the index resolved for each corner in order. -/
def runCorners (ctx : MeshCtx) : DedupState → List CornerSample → DedupState × List ℕ
  | s, [] => (s, [])
  | s, c :: cs =>
      let r := dedupStep s c.cp (assembleVertex ctx c)
      let rest := runCorners ctx r.1 cs
      (rest.1, r.2 :: rest.2)

/-- The initial corner-pass state. -/
def emptyDedup : DedupState := ⟨[], [], []⟩

/-- The control-point map entry for control point `i`
(`out->vertexMap[i]`, defaulting to empty like
`std::unordered_map::operator[]`). -/
def vmapAt (s : DedupState) (i : ℕ) : List ℕ :=
  (s.vmapPush.filter (fun p => p.1 = i)).map (·.2)

/-- The unchecked element-0 access `out->vertexMap[i][0]` performed by
`ReadBlendShapes` (line 91), modelled as a partial operation: `none`
means the entry is empty and the access is out of bounds. -/
def blendBaseIndex (s : DedupState) (i : ℕ) : Option ℕ := (vmapAt s i).head?

/-- An output triangle (`ItpMesh::Mesh::Triangle`), value-initialised
to zeros by `indices.resize`. -/
structure Tri where
  i0 : ℕ
  i1 : ℕ
  i2 : ℕ
deriving DecidableEq

/-- The slot written for source corner `v`: `2 - v` (line 451),
computed in `ℤ` because for `v ≥ 3` it is negative. -/
def triSlot (v : ℕ) : ℤ := 2 - (v : ℤ)

/-- A guarded write into a triangle's 3-element index array; positions
outside `0..2` are out of bounds in the C++ code (undefined
behaviour) and are modelled as a skipped write. -/
def triWrite (t : Tri) (pos : ℤ) (i : ℕ) : Tri :=
  if pos = 0 then { t with i0 := i }
  else if pos = 1 then { t with i1 := i }
  else if pos = 2 then { t with i2 := i }
  else t

/-- Processing one polygon (lines 388-452): for each corner `v`,
resolve its vertex index and write it into the triangle at slot
`2 - v`. -/
def processPoly (ctx : MeshCtx) (s : DedupState) (poly : List CornerSample) :
    DedupState × Tri :=
  poly.enum.foldl
    (fun acc p =>
      let r := dedupStep acc.1 p.2.cp (assembleVertex ctx p.2)
      (r.1, triWrite acc.2 (triSlot p.1) r.2))
    (s, ⟨0, 0, 0⟩)

/-- All triangle writes of a polygon with `n` corners are in
bounds. -/
def TriWritesInBounds (n : ℕ) : Prop :=
  ∀ v, v < n → 0 ≤ triSlot v ∧ triSlot v < 3

/-- C9: for every polygon whose corners arrive in order (A, B, C),
the resolved vertex-buffer indices a, b, c of the three source corners
are written at slots 2, 1, 0 respectively, so the output triangle is
(c, b, a) — the source winding reversed. -/
theorem c9_winding_reversal (ctx : MeshCtx) (s : DedupState) (A B C : CornerSample) :
    processPoly ctx s [A, B, C] =
      ((dedupStep (dedupStep (dedupStep s A.cp (assembleVertex ctx A)).1
          B.cp (assembleVertex ctx B)).1 C.cp (assembleVertex ctx C)).1,
       { i0 := (dedupStep (dedupStep (dedupStep s A.cp (assembleVertex ctx A)).1
            B.cp (assembleVertex ctx B)).1 C.cp (assembleVertex ctx C)).2,
         i1 := (dedupStep (dedupStep s A.cp (assembleVertex ctx A)).1
            B.cp (assembleVertex ctx B)).2,
         i2 := (dedupStep s A.cp (assembleVertex ctx A)).2 }) := rfl

/-- C10: the corner pass writes triangle slot `2 - v` for every corner
`v` of a polygon; the writes are all in bounds precisely when the
polygon has at most 3 corners, and any polygon with 4 or more corners
makes the slot for corner `v = 3` negative, an out-of-bounds write
into the fixed 3-element index array (the input must be triangulated
first). -/
theorem c10_triangle_bounds (n : ℕ) :
    (TriWritesInBounds n ↔ n ≤ 3) ∧ (4 ≤ n → 3 < n ∧ triSlot 3 < 0) := by
  constructor
  · constructor
    · intro h
      by_contra hn
      have h3 := h 3 (by omega)
      simp only [triSlot] at h3
      omega
    · intro h v hv
      simp only [triSlot]
      omega
  · intro h
    refine ⟨by omega, by simp [triSlot]⟩

/-- Witness for C10 at `n = 4`: corner `v = 3` exists and its slot is
negative. -/
theorem c10_triangle_bounds_witness :
    (¬ TriWritesInBounds 4) ∧ (3 < 4 ∧ triSlot 3 < 0) := by
  have h := c10_triangle_bounds 4
  refine ⟨fun hb => by simpa using (h.1.mp hb), h.2 (by omega)⟩

/-! ### Position-of and first-occurrence helpers -/

/-- Index of the first occurrence of `v` in a list (length of the list
when absent). -/
def posOf {α : Type} [DecidableEq α] (v : α) : List α → ℕ
  | [] => 0
  | w :: l => if w = v then 0 else posOf v l + 1

theorem posOf_lt_length {α : Type} [DecidableEq α] {v : α} :
    ∀ {l : List α}, v ∈ l → posOf v l < l.length
  | [], h => absurd h (List.not_mem_nil v)
  | w :: l, h => by
      by_cases hw : w = v
      · simp [posOf, hw]
      · have hv : v ∈ l := by
          rcases List.mem_cons.mp h with h1 | h2
          · exact absurd h1.symm hw
          · exact h2
        simp only [posOf, if_neg hw, List.length_cons]
        exact Nat.succ_lt_succ (posOf_lt_length hv)

theorem getD_posOf {α : Type} [DecidableEq α] {v : α} (d : α) :
    ∀ {l : List α}, v ∈ l → l.getD (posOf v l) d = v
  | [], h => absurd h (List.not_mem_nil v)
  | w :: l, h => by
      by_cases hw : w = v
      · simp [posOf, hw]
      · have hv : v ∈ l := by
          rcases List.mem_cons.mp h with h1 | h2
          · exact absurd h1.symm hw
          · exact h2
        simp only [posOf, if_neg hw, List.getD_cons_succ]
        exact getD_posOf d hv

theorem posOf_inj {α : Type} [DecidableEq α] {v w : α} {l : List α}
    (hv : v ∈ l) (hw : w ∈ l) (h : posOf v l = posOf w l) : v = w := by
  have h1 := getD_posOf (l := l) v hv
  have h2 := getD_posOf (l := l) v hw
  rw [← h] at h2
  exact h1.symm.trans h2

theorem posOf_append_left {α : Type} [DecidableEq α] {v : α} (l2 : List α) :
    ∀ {l : List α}, v ∈ l → posOf v (l ++ l2) = posOf v l
  | [], h => absurd h (List.not_mem_nil v)
  | w :: l, h => by
      by_cases hw : w = v
      · simp [posOf, hw]
      · have hv : v ∈ l := by
          rcases List.mem_cons.mp h with h1 | h2
          · exact absurd h1.symm hw
          · exact h2
        simp only [List.cons_append, posOf, if_neg hw]
        exact congrArg (· + 1) (posOf_append_left l2 hv)

theorem posOf_append_self {α : Type} [DecidableEq α] {v : α} :
    ∀ {l : List α}, v ∉ l → posOf v (l ++ [v]) = l.length
  | [], _ => by simp [posOf]
  | w :: l, h => by
      have hw : w ≠ v := fun hwv => h (hwv ▸ List.mem_cons_self w l)
      have hv : v ∉ l := fun hvl => h (List.mem_cons_of_mem w hvl)
      simp only [List.cons_append, posOf, if_neg hw, List.length_cons]
      exact congrArg (· + 1) (posOf_append_self hv)

/-- The subsequence of first occurrences of a list, in order of first
appearance. -/
def firstOccurrences {α : Type} [DecidableEq α] : List α → List α
  | [] => []
  | a :: l => a :: firstOccurrences (l.filter (fun b => b ≠ a))
  termination_by l => l.length
  decreasing_by simpa using Nat.lt_succ_of_le (List.length_filter_le _ _)

theorem mem_firstOccurrences {α : Type} [DecidableEq α] {v : α} (l : List α) :
    v ∈ firstOccurrences l ↔ v ∈ l := by
  induction l using firstOccurrences.induct with
  | case1 => simp [firstOccurrences]
  | case2 a l ih =>
      rw [firstOccurrences]
      by_cases hv : v = a
      · simp [hv]
      · simp only [List.mem_cons, ih, List.mem_filter]
        constructor
        · rintro (rfl | ⟨h2, _⟩)
          · exact Or.inl rfl
          · exact Or.inr h2
        · rintro (rfl | h2)
          · exact Or.inl rfl
          · exact Or.inr ⟨h2, by simpa using hv⟩

theorem firstOccurrences_nodup {α : Type} [DecidableEq α] (l : List α) :
    (firstOccurrences l).Nodup := by
  induction l using firstOccurrences.induct with
  | case1 => simp [firstOccurrences]
  | case2 a l ih =>
      rw [firstOccurrences]
      refine List.nodup_cons.mpr ⟨?_, ih⟩
      intro ha
      have := List.mem_filter.mp ((mem_firstOccurrences _).mp ha)
      simp at this

/-! ### Dedup state invariant -/

/-- Invariant of the corner pass: the vertex buffer has no duplicate
entries, the map and the buffer have the same size, and the map sends
each buffered vertex to its buffer position. -/
def GoodState (s : DedupState) : Prop :=
  s.verts.Nodup ∧ s.assoc.length = s.verts.length ∧
  ∀ v, mapFind s.assoc v = if v ∈ s.verts then some (posOf v s.verts) else none

theorem emptyDedup_good : GoodState emptyDedup := by
  refine ⟨List.nodup_nil, rfl, fun v => ?_⟩
  simp [mapFind, emptyDedup]

theorem mapFind_append_of_some {m : List (VertexData × ℕ)} {v : VertexData} {k : ℕ}
    (q : VertexData × ℕ) (h : mapFind m v = some k) : mapFind (m ++ [q]) v = some k := by
  induction m with
  | nil => simp [mapFind] at h
  | cons p m ih =>
      by_cases hp : p.1 = v
      · simpa [mapFind, List.find?, hp] using h
      · simp only [mapFind, List.find?, hp, decide_False] at h ⊢
        exact ih h

theorem mapFind_append_of_none {m : List (VertexData × ℕ)} {v : VertexData}
    (q : VertexData × ℕ) (h : mapFind m v = none) :
    mapFind (m ++ [q]) v = if q.1 = v then some q.2 else none := by
  induction m with
  | nil => by_cases hq : q.1 = v <;> simp [mapFind, List.find?, hq]
  | cons p m ih =>
      by_cases hp : p.1 = v
      · simp [mapFind, List.find?, hp] at h
      · simp only [mapFind, List.find?, hp, decide_False] at h ⊢
        exact ih h

/-- On a hit, the dedup step leaves the state unchanged and returns
the vertex's buffer position. -/
theorem dedupStep_hit {s : DedupState} (hs : GoodState s) (cp : ℕ) {v : VertexData}
    (hv : v ∈ s.verts) : dedupStep s cp v = (s, posOf v s.verts) := by
  have h := hs.2.2 v
  rw [if_pos hv] at h
  simp [dedupStep, h]

/-- On a miss, the dedup step appends the vertex at index
`vertexMap.size()` and pushes that index onto the control point's
map entry. -/
theorem dedupStep_miss {s : DedupState} (hs : GoodState s) (cp : ℕ) {v : VertexData}
    (hv : v ∉ s.verts) :
    dedupStep s cp v =
      ({ assoc := s.assoc ++ [(v, s.assoc.length)],
         verts := s.verts ++ [v],
         vmapPush := s.vmapPush ++ [(cp, s.assoc.length)] }, s.assoc.length) := by
  have h := hs.2.2 v
  rw [if_neg hv] at h
  simp [dedupStep, h]

theorem dedupStep_good {s : DedupState} (hs : GoodState s) (cp : ℕ) (v : VertexData) :
    GoodState (dedupStep s cp v).1 := by
  by_cases hv : v ∈ s.verts
  · rw [dedupStep_hit hs cp hv]; exact hs
  · rw [dedupStep_miss hs cp hv]
    refine ⟨?_, ?_, fun w => ?_⟩
    · simp only [List.nodup_append, List.nodup_singleton]
      exact ⟨hs.1, trivial, by simpa [List.disjoint_singleton] using hv⟩
    · simp [hs.2.1]
    · have hw := hs.2.2 w
      by_cases hmem : w ∈ s.verts
      · rw [if_pos hmem] at hw
        rw [mapFind_append_of_some _ hw, if_pos (List.mem_append_left _ hmem),
          posOf_append_left _ hmem]
      · rw [if_neg hmem] at hw
        rw [mapFind_append_of_none _ hw]
        by_cases hwv : v = w
        · subst hwv
          rw [if_pos rfl, if_pos (List.mem_append_right _ (List.mem_singleton_self v)),
            posOf_append_self hmem, hs.2.1]
        · rw [if_neg hwv, if_neg ?notmem]
          case notmem =>
            intro hcon
            rcases List.mem_append.mp hcon with h1 | h2
            · exact hmem h1
            · exact hwv (List.mem_singleton.mp h2).symm

theorem dedupStep_verts_ext (s : DedupState) (cp : ℕ) (v : VertexData) :
    ∃ t, (dedupStep s cp v).1.verts = s.verts ++ t := by
  unfold dedupStep
  rcases mapFind s.assoc v with _ | k
  · exact ⟨[v], rfl⟩
  · exact ⟨[], (List.append_nil _).symm⟩

theorem runCorners_good (ctx : MeshCtx) :
    ∀ (cs : List CornerSample) (s : DedupState), GoodState s →
      GoodState (runCorners ctx s cs).1
  | [], _, hs => hs
  | c :: cs, s, hs => by
      simp only [runCorners]
      exact runCorners_good ctx cs _ (dedupStep_good hs c.cp (assembleVertex ctx c))

theorem runCorners_verts_ext (ctx : MeshCtx) :
    ∀ (cs : List CornerSample) (s : DedupState),
      ∃ t, (runCorners ctx s cs).1.verts = s.verts ++ t
  | [], s => ⟨[], (List.append_nil _).symm⟩
  | c :: cs, s => by
      simp only [runCorners]
      obtain ⟨t1, h1⟩ := dedupStep_verts_ext s c.cp (assembleVertex ctx c)
      obtain ⟨t2, h2⟩ :=
        runCorners_verts_ext ctx cs (dedupStep s c.cp (assembleVertex ctx c)).1
      exact ⟨t1 ++ t2, by rw [h2, h1, List.append_assoc]⟩

/-- Each corner's resolved index is the position of its assembled
vertex in the final vertex buffer, and every assembled vertex is in
the final buffer. -/
theorem runCorners_idx (ctx : MeshCtx) :
    ∀ (cs : List CornerSample) (s : DedupState), GoodState s →
      ((runCorners ctx s cs).2 =
        cs.map (fun c => posOf (assembleVertex ctx c) (runCorners ctx s cs).1.verts)) ∧
      ∀ c ∈ cs, assembleVertex ctx c ∈ (runCorners ctx s cs).1.verts
  | [], _, _ => ⟨rfl, by simp⟩
  | c :: cs, s, hs => by
      have hgood' := dedupStep_good hs c.cp (assembleVertex ctx c)
      have IH := runCorners_idx ctx cs (dedupStep s c.cp (assembleVertex ctx c)).1 hgood'
      obtain ⟨text, hext⟩ :=
        runCorners_verts_ext ctx cs (dedupStep s c.cp (assembleVertex ctx c)).1
      have hk : (dedupStep s c.cp (assembleVertex ctx c)).2 =
          posOf (assembleVertex ctx c) (runCorners ctx s (c :: cs)).1.verts ∧
          assembleVertex ctx c ∈ (runCorners ctx s (c :: cs)).1.verts := by
        simp only [runCorners]
        rw [hext]
        by_cases hv : assembleVertex ctx c ∈ s.verts
        · rw [dedupStep_hit hs c.cp hv] at hext ⊢
          rw [posOf_append_left _ hv]
          exact ⟨rfl, List.mem_append_left _ hv⟩
        · rw [dedupStep_miss hs c.cp hv] at hext ⊢
          have hmem : assembleVertex ctx c ∈ s.verts ++ [assembleVertex ctx c] :=
            List.mem_append_right _ (List.mem_singleton_self _)
          rw [posOf_append_left text hmem, posOf_append_self hv, hs.2.1]
          exact ⟨rfl, List.mem_append_left _ hmem⟩
      constructor
      · simp only [runCorners, List.map_cons]
        refine congrArg₂ (· :: ·) ?_ IH.1
        simpa only [runCorners] using hk.1
      · intro d hd
        rcases List.mem_cons.mp hd with rfl | hd2
        · exact hk.2
        · simpa only [runCorners] using IH.2 d hd2

/-- Membership in the final vertex buffer: exactly the starting
buffer's entries plus the assembled vertices of the processed
corners. -/
theorem runCorners_mem (ctx : MeshCtx) :
    ∀ (cs : List CornerSample) (s : DedupState) (v : VertexData), GoodState s →
      (v ∈ (runCorners ctx s cs).1.verts ↔
        v ∈ s.verts ∨ v ∈ cs.map (assembleVertex ctx))
  | [], _, _, _ => by simp [runCorners]
  | c :: cs, s, v, hs => by
      have hgood' := dedupStep_good hs c.cp (assembleVertex ctx c)
      have IH := runCorners_mem ctx cs (dedupStep s c.cp (assembleVertex ctx c)).1 v hgood'
      simp only [runCorners] at IH ⊢
      rw [IH]
      by_cases hv : assembleVertex ctx c ∈ s.verts
      · rw [dedupStep_hit hs c.cp hv]
        simp only [List.map_cons, List.mem_cons]
        constructor
        · rintro (h1 | h2)
          · exact Or.inl h1
          · exact Or.inr (Or.inr h2)
        · rintro (h1 | rfl | h2)
          · exact Or.inl h1
          · exact Or.inl hv
          · exact Or.inr h2
      · rw [dedupStep_miss hs c.cp hv]
        simp only [List.map_cons, List.mem_cons, List.mem_append, List.mem_singleton]
        tauto

/-- The final vertex buffer is the starting buffer extended by the
first occurrences of the assembled corner vertices not already
buffered, in corner visitation order. -/
theorem runCorners_firstOcc (ctx : MeshCtx) :
    ∀ (cs : List CornerSample) (s : DedupState), GoodState s →
      (runCorners ctx s cs).1.verts =
        s.verts ++
          firstOccurrences ((cs.map (assembleVertex ctx)).filter (fun v => v ∉ s.verts))
  | [], s, _ => by simp [runCorners, firstOccurrences]
  | c :: cs, s, hs => by
      have hgood' := dedupStep_good hs c.cp (assembleVertex ctx c)
      have IH := runCorners_firstOcc ctx cs (dedupStep s c.cp (assembleVertex ctx c)).1 hgood'
      simp only [runCorners] at IH ⊢
      by_cases hv : assembleVertex ctx c ∈ s.verts
      · rw [dedupStep_hit hs c.cp hv] at IH ⊢
        dsimp only at IH ⊢
        rw [IH, List.map_cons, List.filter_cons_of_neg (by simpa using hv)]
      · rw [dedupStep_miss hs c.cp hv] at IH ⊢
        dsimp only at IH ⊢
        rw [IH, List.map_cons, List.filter_cons_of_pos (by simpa using hv)]
        rw [firstOccurrences, List.append_assoc, List.singleton_append]
        have hfilter :
            (cs.map (assembleVertex ctx)).filter
                (fun v => v ∉ s.verts ++ [assembleVertex ctx c]) =
              ((cs.map (assembleVertex ctx)).filter (fun v => v ∉ s.verts)).filter
                (fun v => v ≠ assembleVertex ctx c) := by
          rw [List.filter_filter]
          refine List.filter_congr fun v _ => ?_
          by_cases h1 : v ∈ s.verts <;> by_cases h2 : v = assembleVertex ctx c <;>
            simp [h1, h2]
        rw [hfilter]

instance : Inhabited CornerSample := ⟨⟨0, vzero3, none, none, none⟩⟩

/-- The final vertex buffer of the corner pass, from the empty
state. -/
def dedupVerts (ctx : MeshCtx) (cs : List CornerSample) : List VertexData :=
  (runCorners ctx emptyDedup cs).1.verts

/-- The per-corner resolved vertex-buffer indices, from the empty
state. -/
def dedupIndices (ctx : MeshCtx) (cs : List CornerSample) : List ℕ :=
  (runCorners ctx emptyDedup cs).2

/-- C2: two corners are assigned the same vertex-buffer index iff
their assembled candidate vertices are equal in every field; the
vertex buffer never contains two equal entries; and assignment is
first-seen-wins — the buffer lists the distinct assembled vertices in
order of first appearance and every corner's index is its vertex's
position there. -/
theorem c2_dedup_engine (ctx : MeshCtx) (cs : List CornerSample) :
    (dedupVerts ctx cs).Nodup ∧
    dedupVerts ctx cs = firstOccurrences (cs.map (assembleVertex ctx)) ∧
    dedupIndices ctx cs =
      cs.map (fun c => posOf (assembleVertex ctx c) (dedupVerts ctx cs)) ∧
    ∀ i j, i < cs.length → j < cs.length →
      ((dedupIndices ctx cs).getD i 0 = (dedupIndices ctx cs).getD j 0 ↔
        assembleVertex ctx (cs.getD i default) = assembleVertex ctx (cs.getD j default)) := by
  have hgood := runCorners_good ctx cs emptyDedup emptyDedup_good
  have hidx := runCorners_idx ctx cs emptyDedup emptyDedup_good
  have hfo := runCorners_firstOcc ctx cs emptyDedup emptyDedup_good
  refine ⟨hgood.1, ?_, hidx.1, ?_⟩
  · unfold dedupVerts
    rw [hfo]
    simp [emptyDedup]
  · intro i j hi hj
    have hlen : (dedupIndices ctx cs).length = cs.length := by
      rw [dedupIndices, hidx.1]; simp
    have geti : ∀ (k : ℕ) (hk : k < cs.length),
        (dedupIndices ctx cs).getD k 0 =
          posOf (assembleVertex ctx (cs.getD k default)) (dedupVerts ctx cs) := by
      intro k hk
      rw [List.getD_eq_getElem _ _ (by omega : k < (dedupIndices ctx cs).length)]
      rw [List.getD_eq_getElem _ _ hk]
      simp only [dedupIndices, hidx.1, dedupVerts]
      rw [List.getElem_map]
    rw [geti i hi, geti j hj]
    have hmem : ∀ (k : ℕ) (hk : k < cs.length),
        assembleVertex ctx (cs.getD k default) ∈ dedupVerts ctx cs := by
      intro k hk
      rw [List.getD_eq_getElem _ _ hk]
      exact hidx.2 _ (List.getElem_mem hk)
    constructor
    · exact fun h => posOf_inj (hmem i hi) (hmem j hj) h
    · exact fun h => by rw [h]

/-- Concrete corner list used to witness C2: corners 0 and 2 assemble
to the same vertex, corner 1 differs. -/
def c2cs : List CornerSample :=
  [⟨0, ⟨0, 0, 0⟩, none, none, none⟩, ⟨1, ⟨1, 0, 0⟩, none, none, none⟩,
    ⟨0, ⟨0, 0, 0⟩, none, none, none⟩]

/-- Witness for C2 at a concrete three-corner mesh. -/
theorem c2_dedup_engine_witness :
    (0 < c2cs.length ∧ 2 < c2cs.length) ∧
    ((dedupIndices ⟨false, [], []⟩ c2cs).getD 0 0 =
        (dedupIndices ⟨false, [], []⟩ c2cs).getD 2 0 ↔
      assembleVertex ⟨false, [], []⟩ (c2cs.getD 0 default) =
        assembleVertex ⟨false, [], []⟩ (c2cs.getD 2 default)) :=
  ⟨⟨by decide, by decide⟩,
    (c2_dedup_engine ⟨false, [], []⟩ c2cs).2.2.2 0 2 (by decide) (by decide)⟩

/-! ### Control-point map characterisation -/

theorem dedupStep_push_ext (s : DedupState) (cp : ℕ) (v : VertexData) :
    ∃ t, (dedupStep s cp v).1.vmapPush = s.vmapPush ++ t := by
  unfold dedupStep
  rcases mapFind s.assoc v with _ | k
  · exact ⟨[(cp, s.assoc.length)], rfl⟩
  · exact ⟨[], (List.append_nil _).symm⟩

theorem runCorners_push_ext (ctx : MeshCtx) :
    ∀ (cs : List CornerSample) (s : DedupState),
      ∃ t, (runCorners ctx s cs).1.vmapPush = s.vmapPush ++ t
  | [], s => ⟨[], (List.append_nil _).symm⟩
  | c :: cs, s => by
      simp only [runCorners]
      obtain ⟨t1, h1⟩ := dedupStep_push_ext s c.cp (assembleVertex ctx c)
      obtain ⟨t2, h2⟩ :=
        runCorners_push_ext ctx cs (dedupStep s c.cp (assembleVertex ctx c)).1
      exact ⟨t1 ++ t2, by rw [h2, h1, List.append_assoc]⟩

/-- The control-point map entry for `i` is non-empty iff some corner
referencing `i` missed the vertex map, i.e. was the first occurrence
of its assembled vertex (relative to the starting state). -/
theorem runCorners_vmapAt_ne (ctx : MeshCtx) :
    ∀ (cs : List CornerSample) (s : DedupState), GoodState s → ∀ i : ℕ,
      (vmapAt (runCorners ctx s cs).1 i ≠ [] ↔
        vmapAt s i ≠ [] ∨
          ∃ l1 c l2, cs = l1 ++ c :: l2 ∧ c.cp = i ∧
            assembleVertex ctx c ∉ s.verts ∧
            assembleVertex ctx c ∉ l1.map (assembleVertex ctx))
  | [], s, _, i => by
      simp only [runCorners]
      constructor
      · exact fun h => Or.inl h
      · rintro (h | ⟨l1, c, l2, heq, _⟩)
        · exact h
        · simp at heq
  | c0 :: cs, s, hs, i => by
      have hgood' := dedupStep_good hs c0.cp (assembleVertex ctx c0)
      have IH :=
        runCorners_vmapAt_ne ctx cs (dedupStep s c0.cp (assembleVertex ctx c0)).1 hgood' i
      simp only [runCorners]
      rw [IH]
      by_cases hv : assembleVertex ctx c0 ∈ s.verts
      · rw [dedupStep_hit hs c0.cp hv]
        dsimp only
        constructor
        · rintro (h | ⟨l1, c, l2, heq, hcp, hnv, hnl⟩)
          · exact Or.inl h
          · refine Or.inr ⟨c0 :: l1, c, l2, by rw [heq]; rfl, hcp, hnv, ?_⟩
            simp only [List.map_cons, List.mem_cons, not_or]
            exact ⟨fun he => hnv (he ▸ hv), hnl⟩
        · rintro (h | ⟨l1, c, l2, heq, hcp, hnv, hnl⟩)
          · exact Or.inl h
          · rcases l1 with _ | ⟨x, l1'⟩
            · simp only [List.nil_append] at heq
              injection heq with h1 h2
              cases h1
              exact absurd hv hnv
            · simp only [List.cons_append] at heq
              injection heq with h1 h2
              cases h1
              simp only [List.map_cons, List.mem_cons, not_or] at hnl
              exact Or.inr ⟨l1', c, l2, h2, hcp, hnv, hnl.2⟩
      · rw [dedupStep_miss hs c0.cp hv]
        dsimp only
        have hpush : vmapAt
            ⟨s.assoc ++ [(assembleVertex ctx c0, s.assoc.length)],
              s.verts ++ [assembleVertex ctx c0],
              s.vmapPush ++ [(c0.cp, s.assoc.length)]⟩ i =
            vmapAt s i ++ (if c0.cp = i then [s.assoc.length] else []) := by
          unfold vmapAt
          dsimp only
          rw [List.filter_append, List.map_append]
          by_cases h : c0.cp = i <;> simp [h]
        rw [hpush]
        by_cases hcp : c0.cp = i
        · simp only [if_pos hcp]
          constructor
          · intro _
            exact Or.inr ⟨[], c0, cs, rfl, hcp, hv, by simp⟩
          · intro _
            exact Or.inl (by simp)
        · simp only [if_neg hcp, List.append_nil]
          constructor
          · rintro (h | ⟨l1, c, l2, heq, hcp', hnv, hnl⟩)
            · exact Or.inl h
            · simp only [List.mem_append, List.mem_singleton, not_or] at hnv
              refine Or.inr ⟨c0 :: l1, c, l2, by rw [heq]; rfl, hcp', hnv.1, ?_⟩
              simp only [List.map_cons, List.mem_cons, not_or]
              exact ⟨hnv.2, hnl⟩
          · rintro (h | ⟨l1, c, l2, heq, hcp', hnv, hnl⟩)
            · exact Or.inl h
            · rcases l1 with _ | ⟨x, l1'⟩
              · simp only [List.nil_append] at heq
                injection heq with h1 h2
                cases h1
                exact absurd hcp' hcp
              · simp only [List.cons_append] at heq
                injection heq with h1 h2
                cases h1
                simp only [List.map_cons, List.mem_cons, not_or] at hnl
                refine Or.inr ⟨l1', c, l2, h2, hcp', ?_, hnl.2⟩
                simp only [List.mem_append, List.mem_singleton, not_or]
                exact ⟨hnv, hnl.1⟩

/-- C3: the Control-Point Map entry for control point `i` is non-empty
iff some corner referencing `i` was the first occurrence of its
assembled vertex during dedup; consequently a control point referenced
by no corner, or all of whose corners deduplicated to vertices first
registered under a different control point, leaves an empty entry, and
the unchecked `vertexMap[i][0]` read of `ReadBlendShapes` (modelled
`blendBaseIndex`, `none` = out of bounds) can fail: on a concrete
two-corner mesh whose corners assemble to the same vertex under
control points 0 and 1, the entry for the referenced control point 1
is empty and the element-0 access is out of bounds. -/
theorem c3_unchecked_vertexmap_access (ctx : MeshCtx) (cs : List CornerSample) (i : ℕ) :
    (vmapAt (runCorners ctx emptyDedup cs).1 i ≠ [] ↔
      ∃ l1 c l2, cs = l1 ++ c :: l2 ∧ c.cp = i ∧
        assembleVertex ctx c ∉ l1.map (assembleVertex ctx)) ∧
    blendBaseIndex
        (runCorners ⟨false, [], []⟩ emptyDedup
          [⟨0, vzero3, none, none, none⟩, ⟨1, vzero3, none, none, none⟩]).1 1 = none ∧
    ((⟨1, vzero3, none, none, none⟩ : CornerSample) ∈
        ([⟨0, vzero3, none, none, none⟩, ⟨1, vzero3, none, none, none⟩] :
          List CornerSample) ∧
      (⟨1, vzero3, none, none, none⟩ : CornerSample).cp = 1) := by
  refine ⟨?_, by decide, by decide, by decide⟩
  rw [runCorners_vmapAt_ne ctx cs emptyDedup emptyDedup_good i]
  simp [vmapAt, emptyDedup]

/-- Witness for C3 at a concrete mesh and control point. -/
theorem c3_unchecked_vertexmap_access_witness :
    vmapAt (runCorners ⟨false, [], []⟩ emptyDedup c2cs).1 1 ≠ [] ↔
      ∃ l1 c l2, c2cs = l1 ++ c :: l2 ∧ c.cp = 1 ∧
        assembleVertex ⟨false, [], []⟩ c ∉ l1.map (assembleVertex ⟨false, [], []⟩) :=
  (c3_unchecked_vertexmap_access ⟨false, [], []⟩ c2cs 1).1

/-! ## Skin cluster scan (`ReadSkin`, lines 140-232)

Bone registration, bind-matrix retention and influence gathering over
the skin clusters.  Bone (node) names are a generic decidable type;
`FbxAMatrix` and its operations are external SDK objects, modelled by
an abstract type with the three operations the code uses. -/

/-- Operations on bind matrices (`FbxAMatrix`), supplied by the
external FBX SDK: multiplication, inverse, and the translation
component `GetT`. -/
structure MatOps (M : Type) where
  mmul : M → M → M
  minv : M → M
  getT : M → Vec3

/-- One skin cluster as exposed by the external cluster source: the
link (bone) node, the link and mesh bind-pose matrices, and the raw
per-control-point (index, weight) pairs.  The bone name is the link
node's name (`linkNode->GetName()`, line 169). -/
structure Cluster (M : Type) where
  link : ℕ
  linkBind : M
  meshBind : M
  infl : List (ℤ × ℚ)

/-- The product `localBind = linkBindMat * meshBindMat.Inverse()` (lines 197 and
209). -/
def localBindOf {M : Type} (ops : MatOps M) (c : Cluster M) : M :=
  ops.mmul c.linkBind (ops.minv c.meshBind)

/-- State of the cluster scan: the name→index map (in insertion
order), `nextBoneIndex`, the per-bone link nodes and bind matrices,
the accumulated `(cpIndex, boneIndex, weight)` influence pushes, and
the names reported in too-many-bones diagnostics. -/
structure SkinState (Name M : Type) where
  boneMap : List (Name × ℕ)
  nextBoneIndex : ℕ
  boneNodes : List ℕ
  boneBind : List M
  cpPush : List (ℕ × ℕ × ℚ)
  diags : List Name

/-- Lookup in `boneNameToIndex`. -/
def lookupBone {Name : Type} [DecidableEq Name] (m : List (Name × ℕ)) (n : Name) :
    Option ℕ :=
  (m.find? (fun p => p.1 = n)).map (·.2)

/-- The influence pairs a cluster contributes for bone index `bi`
(lines 221-230): entries with weight `≤ 0` or a control-point index
outside `[0, controlPointCount)` are skipped. -/
def pushInfl (count : ℕ) (bi : ℕ) (l : List (ℤ × ℚ)) : List (ℕ × ℕ × ℚ) :=
  (l.filter (fun p => decide (0 < p.2) && (decide (0 ≤ p.1) && decide (p.1 < (count : ℤ))))).map
    (fun p => (p.1.toNat, bi, p.2))

/-- Processing one cluster (lines 161-231): a new name registers a
bone (unless 256 are already registered, in which case only a
diagnostic is emitted and the whole cluster is skipped); a known name
re-uses its index and overwrites the stored bind matrix only when the
stored translation is exactly zero; then the cluster's influences are
accumulated under the bone index. -/
def processCluster {Name M : Type} [DecidableEq Name] [Inhabited M] (ops : MatOps M)
    (nodeName : ℕ → Name) (count : ℕ) (st : SkinState Name M) (c : Cluster M) :
    SkinState Name M :=
  match lookupBone st.boneMap (nodeName c.link) with
  | none =>
      if 255 < st.nextBoneIndex then { st with diags := st.diags ++ [nodeName c.link] }
      else
        { boneMap := st.boneMap ++ [(nodeName c.link, st.nextBoneIndex)],
          nextBoneIndex := st.nextBoneIndex + 1,
          boneNodes := st.boneNodes ++ [c.link],
          boneBind := st.boneBind ++ [localBindOf ops c],
          cpPush := st.cpPush ++ pushInfl count st.nextBoneIndex c.infl,
          diags := st.diags }
  | some bi =>
      let st2 :=
        if ops.getT (st.boneBind.getD bi default) = vzero3 then
          { st with boneBind := st.boneBind.set bi (localBindOf ops c) }
        else st
      { st2 with cpPush := st2.cpPush ++ pushInfl count bi c.infl }

/-- The scan's initial state. -/
def emptySkin {Name M : Type} : SkinState Name M := ⟨[], 0, [], [], [], []⟩

/-- The full cluster scan. -/
def processClusters {Name M : Type} [DecidableEq Name] [Inhabited M] (ops : MatOps M)
    (nodeName : ℕ → Name) (count : ℕ) (cs : List (Cluster M)) : SkinState Name M :=
  cs.foldl (processCluster ops nodeName count) emptySkin

/-- The cluster names in scan order. -/
def clusterNames {Name M : Type} (nodeName : ℕ → Name) (cs : List (Cluster M)) :
    List Name :=
  cs.map (fun c => nodeName c.link)

/-- The registered names: first occurrences of distinct names in scan
order, capped at 256. -/
def reg256 {Name : Type} [DecidableEq Name] (names : List Name) : List Name :=
  (firstOccurrences names).take 256

/-- A list tagged with indices `k, k+1, ...`. -/
def enumFrom {α : Type} (k : ℕ) : List α → List (α × ℕ)
  | [] => []
  | a :: l => (a, k) :: enumFrom (k + 1) l

/-- The bind matrices computed from a name's clusters, in scan
order. -/
def occBinds {Name M : Type} [DecidableEq Name] (ops : MatOps M) (nodeName : ℕ → Name)
    (cs : List (Cluster M)) (nm : Name) : List M :=
  (cs.filter (fun c => nodeName c.link = nm)).map (localBindOf ops)

/-- The link node of the first cluster bearing a name. -/
def firstLinkOf {Name M : Type} [DecidableEq Name] (nodeName : ℕ → Name)
    (cs : List (Cluster M)) (nm : Name) : ℕ :=
  match cs.find? (fun c => nodeName c.link = nm) with
  | some c => c.link
  | none => 0

/-- The retained bind matrix the spec's retention policy describes:
the first computed value whose translation is not exactly zero, or the
last computed value when all translations are zero. -/
def retainPolicy {M : Type} [Inhabited M] (ops : MatOps M) (l : List M) : M :=
  match l.find? (fun m => decide (ops.getT m ≠ vzero3)) with
  | some m => m
  | none => l.getLast?.getD default

/-! ### Cluster-scan characterisation helpers -/

theorem find?_append_of_some {α : Type} {p : α → Bool} :
    ∀ {l1 : List α} {x : α} (l2 : List α), l1.find? p = some x →
      (l1 ++ l2).find? p = some x
  | [], _, _, h => by simp at h
  | a :: l1, x, l2, h => by
      by_cases ha : p a = true
      · rw [List.find?_cons_of_pos _ ha] at h
        rw [List.cons_append, List.find?_cons_of_pos _ ha]
        exact h
      · have ha' : ¬ (p a = true) := ha
        rw [List.find?_cons_of_neg _ ha'] at h
        rw [List.cons_append, List.find?_cons_of_neg _ ha']
        exact find?_append_of_some l2 h

theorem find?_append_of_none {α : Type} {p : α → Bool} :
    ∀ {l1 : List α} (l2 : List α), l1.find? p = none →
      (l1 ++ l2).find? p = l2.find? p
  | [], _, _ => rfl
  | a :: l1, l2, h => by
      by_cases ha : p a = true
      · rw [List.find?_cons_of_pos _ ha] at h
        cases h
      · have ha' : ¬ (p a = true) := ha
        rw [List.find?_cons_of_neg _ ha'] at h
        rw [List.cons_append, List.find?_cons_of_neg _ ha']
        exact find?_append_of_none l2 h

theorem lookupBone_enumFrom {Name : Type} [DecidableEq Name] :
    ∀ (l : List Name) (k : ℕ) (a : Name),
      lookupBone (enumFrom k l) a = if a ∈ l then some (k + posOf a l) else none
  | [], k, a => by simp [lookupBone, enumFrom]
  | x :: l, k, a => by
      simp only [enumFrom, lookupBone]
      by_cases hx : x = a
      · rw [List.find?_cons_of_pos _ (by simpa using hx)]
        subst hx
        simp [posOf]
      · rw [List.find?_cons_of_neg _ (by simpa using hx)]
        have IH := lookupBone_enumFrom l (k + 1) a
        unfold lookupBone at IH
        rw [IH]
        by_cases ha : a ∈ l
        · rw [if_pos ha, if_pos (List.mem_cons_of_mem x ha)]
          simp only [posOf, if_neg hx]
          exact congrArg some (by omega)
        · rw [if_neg ha, if_neg ?_]
          intro hc
          rcases List.mem_cons.mp hc with h | h
          · exact hx h.symm
          · exact ha h

theorem enumFrom_append {α : Type} :
    ∀ (l : List α) (k : ℕ) (a : α),
      enumFrom k (l ++ [a]) = enumFrom k l ++ [(a, k + l.length)]
  | [], k, a => by simp [enumFrom]
  | x :: l, k, a => by
      show (x, k) :: enumFrom (k + 1) (l ++ [a]) =
        ((x, k) :: enumFrom (k + 1) l) ++ [(a, k + (x :: l).length)]
      rw [enumFrom_append l (k + 1) a, List.cons_append]
      have h : k + 1 + l.length = k + (x :: l).length := by simp; omega
      rw [h]

theorem firstOccurrences_append {α : Type} [DecidableEq α] (a : α) (l : List α) :
    firstOccurrences (l ++ [a]) =
      if a ∈ l then firstOccurrences l else firstOccurrences l ++ [a] := by
  induction l using firstOccurrences.induct with
  | case1 => simp [firstOccurrences]
  | case2 x l ih =>
      by_cases hax : a = x
      · subst hax
        simp only [List.cons_append, firstOccurrences, List.filter_append]
        have h1 : [a].filter (fun b => b ≠ a) = [] := by simp
        rw [h1, List.append_nil, if_pos (List.mem_cons_self a l)]
      · simp only [List.cons_append, firstOccurrences, List.filter_append]
        have h1 : [a].filter (fun b => b ≠ x) = [a] := by simp [hax]
        rw [h1, ih]
        by_cases hal : a ∈ l
        · rw [if_pos (List.mem_filter.mpr ⟨hal, by simpa using hax⟩),
            if_pos (List.mem_cons_of_mem x hal)]
        · have hnx : a ∉ x :: l := by
            intro hc
            rcases List.mem_cons.mp hc with h | h
            · exact hax h
            · exact hal h
          rw [if_neg (fun hc => hal (List.mem_of_mem_filter hc)), if_neg hnx]

theorem reg256_length_le {Name : Type} [DecidableEq Name] (names : List Name) :
    (reg256 names).length ≤ 256 := by
  unfold reg256
  simpa using Nat.min_le_left 256 (firstOccurrences names).length

theorem reg256_nodup {Name : Type} [DecidableEq Name] (names : List Name) :
    (reg256 names).Nodup :=
  (List.take_sublist _ _).nodup (firstOccurrences_nodup names)

theorem mem_of_mem_reg256 {Name : Type} [DecidableEq Name] {names : List Name} {a : Name}
    (h : a ∈ reg256 names) : a ∈ names :=
  (mem_firstOccurrences names).mp (List.mem_of_mem_take h)

theorem reg256_append_mem {Name : Type} [DecidableEq Name] {names : List Name} {a : Name}
    (h : a ∈ names) : reg256 (names ++ [a]) = reg256 names := by
  unfold reg256
  rw [firstOccurrences_append, if_pos h]

theorem reg256_append_new {Name : Type} [DecidableEq Name] {names : List Name} {a : Name}
    (hnew : a ∉ names) (hlen : (firstOccurrences names).length < 256) :
    reg256 (names ++ [a]) = reg256 names ++ [a] := by
  unfold reg256
  rw [firstOccurrences_append, if_neg hnew,
    List.take_of_length_le (by simp; omega), List.take_of_length_le (by omega)]

theorem reg256_append_full {Name : Type} [DecidableEq Name] {names : List Name} {a : Name}
    (hnew : a ∉ names) (hlen : 256 ≤ (firstOccurrences names).length) :
    reg256 (names ++ [a]) = reg256 names := by
  unfold reg256
  rw [firstOccurrences_append, if_neg hnew, List.take_append_of_le_length hlen]

theorem getD_map_posOf {α β : Type} [DecidableEq α] {a : α} (f : α → β) (d : β) :
    ∀ {l : List α}, a ∈ l → (l.map f).getD (posOf a l) d = f a
  | [], h => absurd h (List.not_mem_nil a)
  | x :: l, h => by
      by_cases hx : x = a
      · simp [posOf, hx]
      · have ha : a ∈ l := by
          rcases List.mem_cons.mp h with h1 | h2
          · exact absurd h1.symm hx
          · exact h2
        simp only [posOf, if_neg hx, List.map_cons, List.getD_cons_succ]
        exact getD_map_posOf f d ha

theorem map_set_posOf {α β : Type} [DecidableEq α] {a : α} (f g : α → β) :
    ∀ {l : List α}, l.Nodup → a ∈ l → (∀ x ∈ l, x ≠ a → f x = g x) →
      (l.map f).set (posOf a l) (g a) = l.map g
  | [], _, h, _ => absurd h (List.not_mem_nil a)
  | x :: l, hnd, h, hfg => by
      by_cases hx : x = a
      · subst hx
        simp only [posOf, if_pos rfl, List.map_cons, List.set_cons_zero]
        refine congrArg (g x :: ·) (List.map_congr_left fun y hy => ?_)
        refine hfg y (List.mem_cons_of_mem x hy) fun hya => ?_
        exact (List.nodup_cons.mp hnd).1 (hya ▸ hy)
      · have ha : a ∈ l := by
          rcases List.mem_cons.mp h with h1 | h2
          · exact absurd h1.symm hx
          · exact h2
        simp only [posOf, if_neg hx, List.map_cons, List.set_cons_succ]
        rw [hfg x (List.mem_cons_self x l) hx]
        refine congrArg (g x :: ·) ?_
        exact map_set_posOf f g (List.nodup_cons.mp hnd).2 ha
          (fun y hy hya => hfg y (List.mem_cons_of_mem x hy) hya)

theorem occBinds_append {Name M : Type} [DecidableEq Name] (ops : MatOps M)
    (nodeName : ℕ → Name) (cs : List (Cluster M)) (c : Cluster M) (nm : Name) :
    occBinds ops nodeName (cs ++ [c]) nm =
      occBinds ops nodeName cs nm ++
        (if nodeName c.link = nm then [localBindOf ops c] else []) := by
  unfold occBinds
  rw [List.filter_append, List.map_append]
  by_cases h : nodeName c.link = nm <;> simp [h]

theorem occBinds_ne_nil {Name M : Type} [DecidableEq Name] (ops : MatOps M)
    (nodeName : ℕ → Name) {cs : List (Cluster M)} {nm : Name}
    (h : nm ∈ clusterNames nodeName cs) : occBinds ops nodeName cs nm ≠ [] := by
  rcases List.mem_map.mp h with ⟨c, hc, he⟩
  unfold occBinds
  intro hcon
  rw [List.map_eq_nil_iff] at hcon
  have : c ∈ cs.filter (fun c' => nodeName c'.link = nm) :=
    List.mem_filter.mpr ⟨hc, by simpa using he⟩
  rw [hcon] at this
  exact List.not_mem_nil c this

theorem firstLinkOf_append_of_mem {Name M : Type} [DecidableEq Name] (nodeName : ℕ → Name)
    {cs : List (Cluster M)} {nm : Name} (h : nm ∈ clusterNames nodeName cs)
    (c : Cluster M) :
    firstLinkOf nodeName (cs ++ [c]) nm = firstLinkOf nodeName cs nm := by
  unfold firstLinkOf
  rcases hs : cs.find? (fun c' => decide (nodeName c'.link = nm)) with _ | x
  · exfalso
    rcases List.mem_map.mp h with ⟨c', hc', he⟩
    have := List.find?_eq_none.mp hs c' hc'
    simp only [decide_eq_true_eq] at this
    exact this he
  · rw [find?_append_of_some _ hs, hs]

theorem firstLinkOf_append_new {Name M : Type} [DecidableEq Name] (nodeName : ℕ → Name)
    {cs : List (Cluster M)} {c : Cluster M}
    (h : nodeName c.link ∉ clusterNames nodeName cs) :
    firstLinkOf nodeName (cs ++ [c]) (nodeName c.link) = c.link := by
  unfold firstLinkOf
  have hnone : cs.find? (fun c' => decide (nodeName c'.link = nodeName c.link)) = none := by
    rw [List.find?_eq_none]
    intro x hx
    simp only [decide_eq_true_eq]
    exact fun he => h (List.mem_map.mpr ⟨x, hx, he⟩)
  rw [find?_append_of_none _ hnone]
  simp [List.find?]

theorem retainPolicy_singleton {M : Type} [Inhabited M] (ops : MatOps M) (v : M) :
    retainPolicy ops [v] = v := by
  unfold retainPolicy
  by_cases h : ops.getT v = vzero3 <;> simp [List.find?, h]

theorem retainPolicy_of_find_some {M : Type} [Inhabited M] (ops : MatOps M)
    {l : List M} {m : M}
    (h : l.find? (fun x => decide (ops.getT x ≠ vzero3)) = some m) :
    retainPolicy ops l = m := by
  unfold retainPolicy
  rw [h]

theorem retainPolicy_of_find_none {M : Type} [Inhabited M] (ops : MatOps M)
    {l : List M} (h : l.find? (fun x => decide (ops.getT x ≠ vzero3)) = none) :
    retainPolicy ops l = l.getLast?.getD default := by
  unfold retainPolicy
  rw [h]

theorem getT_retainPolicy_eq_zero_iff {M : Type} [Inhabited M] (ops : MatOps M)
    {l : List M} (hne : l ≠ []) :
    ops.getT (retainPolicy ops l) = vzero3 ↔
      l.find? (fun m => decide (ops.getT m ≠ vzero3)) = none := by
  rcases hf : l.find? (fun m => decide (ops.getT m ≠ vzero3)) with _ | m
  · rw [retainPolicy_of_find_none ops hf]
    refine iff_of_true ?_ rfl
    have hall := List.find?_eq_none.mp hf
    have hmem : l.getLast?.getD default ∈ l := by
      rcases List.exists_cons_of_ne_nil hne with ⟨x, l', rfl⟩
      rw [List.getLast?_eq_getLast _ (by simp), Option.getD_some]
      exact List.getLast_mem _
    simpa using hall _ hmem
  · rw [retainPolicy_of_find_some ops hf]
    have hm := List.find?_some hf
    simp only [decide_eq_true_eq] at hm
    exact iff_of_false hm (by simp)

theorem retainPolicy_append {M : Type} [Inhabited M] (ops : MatOps M) (l : List M)
    (v : M) (hne : l ≠ []) :
    retainPolicy ops (l ++ [v]) =
      if ops.getT (retainPolicy ops l) = vzero3 then v else retainPolicy ops l := by
  rcases hf : l.find? (fun m => decide (ops.getT m ≠ vzero3)) with _ | m
  · rw [if_pos ((getT_retainPolicy_eq_zero_iff ops hne).mpr hf)]
    by_cases hv : ops.getT v = vzero3
    · rw [retainPolicy_of_find_none ops
        (by rw [find?_append_of_none _ hf]; simp [List.find?, hv])]
      simp [List.getLast?_concat]
    · rw [retainPolicy_of_find_some ops (l := l ++ [v]) (m := v)
        (by rw [find?_append_of_none _ hf]; simp [List.find?, hv])]
  · rw [if_neg (by rw [getT_retainPolicy_eq_zero_iff ops hne, hf]; simp),
      retainPolicy_of_find_some ops (find?_append_of_some _ hf),
      retainPolicy_of_find_some ops hf]

/-- Full characterisation of the cluster scan: the name→index map
enumerates the first 256 distinct names in first-encounter order;
`nextBoneIndex` is their number; the bone nodes are the links of each
name's first cluster; the stored bind matrix of each registered name
follows the first-nonzero-translation retention policy over that
name's clusters; the diagnostics list the (occurrences of) names
beyond the 256 registered ones; and the influence pushes come exactly
from the clusters of registered names, tagged with their bone
index. -/
theorem processClusters_char {Name M : Type} [DecidableEq Name] [Inhabited M]
    (ops : MatOps M) (nodeName : ℕ → Name) (count : ℕ) (cs : List (Cluster M)) :
    (processClusters ops nodeName count cs).boneMap =
        enumFrom 0 (reg256 (clusterNames nodeName cs)) ∧
    (processClusters ops nodeName count cs).nextBoneIndex =
        (reg256 (clusterNames nodeName cs)).length ∧
    (processClusters ops nodeName count cs).boneNodes =
        (reg256 (clusterNames nodeName cs)).map (firstLinkOf nodeName cs) ∧
    (processClusters ops nodeName count cs).boneBind =
        (reg256 (clusterNames nodeName cs)).map
          (fun nm => retainPolicy ops (occBinds ops nodeName cs nm)) ∧
    (processClusters ops nodeName count cs).diags =
        (cs.filter (fun c => nodeName c.link ∉ reg256 (clusterNames nodeName cs))).map
          (fun c => nodeName c.link) ∧
    (processClusters ops nodeName count cs).cpPush =
        (cs.map (fun c =>
          if nodeName c.link ∈ reg256 (clusterNames nodeName cs) then
            pushInfl count (posOf (nodeName c.link) (reg256 (clusterNames nodeName cs)))
              c.infl
          else [])).flatten := by
  induction cs using List.reverseRecOn with
  | nil =>
      refine ⟨?_, ?_, ?_, ?_, ?_, ?_⟩ <;>
        simp [processClusters, emptySkin, clusterNames, reg256, firstOccurrences, enumFrom]
  | append_singleton cs c ih =>
      obtain ⟨hA, hB, hG, hF, hD, hE⟩ := ih
      have hfold : processClusters ops nodeName count (cs ++ [c]) =
          processCluster ops nodeName count (processClusters ops nodeName count cs) c := by
        unfold processClusters
        rw [List.foldl_append]
        rfl
      have hnames : clusterNames nodeName (cs ++ [c]) =
          clusterNames nodeName cs ++ [nodeName c.link] := by
        simp [clusterNames]
      rw [hfold, hnames]
      by_cases hmem : nodeName c.link ∈ reg256 (clusterNames nodeName cs)
      · -- known bone: re-use the index, maybe overwrite the bind matrix
        have hmemn : nodeName c.link ∈ clusterNames nodeName cs := mem_of_mem_reg256 hmem
        have hreg : reg256 (clusterNames nodeName cs ++ [nodeName c.link]) =
            reg256 (clusterNames nodeName cs) := reg256_append_mem hmemn
        rw [hreg]
        have hlook : lookupBone (processClusters ops nodeName count cs).boneMap
            (nodeName c.link) =
            some (posOf (nodeName c.link) (reg256 (clusterNames nodeName cs))) := by
          rw [hA, lookupBone_enumFrom, if_pos hmem, Nat.zero_add]
        have hstored : (processClusters ops nodeName count cs).boneBind.getD
            (posOf (nodeName c.link) (reg256 (clusterNames nodeName cs))) default =
            retainPolicy ops (occBinds ops nodeName cs (nodeName c.link)) := by
          rw [hF]
          exact getD_map_posOf _ _ hmem
        have hoccne : occBinds ops nodeName cs (nodeName c.link) ≠ [] :=
          occBinds_ne_nil ops nodeName hmemn
        have hocc_eq : ∀ x ∈ reg256 (clusterNames nodeName cs), x ≠ nodeName c.link →
            occBinds ops nodeName (cs ++ [c]) x = occBinds ops nodeName cs x := by
          intro x _ hx
          rw [occBinds_append, if_neg (fun he => hx he.symm), List.append_nil]
        have hocc_a : occBinds ops nodeName (cs ++ [c]) (nodeName c.link) =
            occBinds ops nodeName cs (nodeName c.link) ++ [localBindOf ops c] := by
          rw [occBinds_append, if_pos rfl]
        have hlinks : (reg256 (clusterNames nodeName cs)).map
              (firstLinkOf nodeName (cs ++ [c])) =
            (reg256 (clusterNames nodeName cs)).map (firstLinkOf nodeName cs) :=
          List.map_congr_left fun x hx =>
            firstLinkOf_append_of_mem nodeName (mem_of_mem_reg256 hx) c
        have hfilterc : List.filter
              (fun c' => decide (nodeName c'.link ∉ reg256 (clusterNames nodeName cs)))
              [c] = [] := by
          simp [hmem]
        unfold processCluster
        rw [hlook]
        simp only [hstored]
        by_cases hz :
            ops.getT (retainPolicy ops (occBinds ops nodeName cs (nodeName c.link))) = vzero3
        · rw [if_pos hz]
          refine ⟨hA, hB, ?_, ?_, ?_, ?_⟩
          · rw [hG, hlinks]
          · have hval : retainPolicy ops
                (occBinds ops nodeName (cs ++ [c]) (nodeName c.link)) =
                localBindOf ops c := by
              rw [hocc_a, retainPolicy_append ops _ _ hoccne, if_pos hz]
            rw [hF]
            show (List.map (fun nm => retainPolicy ops (occBinds ops nodeName cs nm))
                (reg256 (clusterNames nodeName cs))).set
                (posOf (nodeName c.link) (reg256 (clusterNames nodeName cs)))
                (localBindOf ops c) =
              List.map (fun nm => retainPolicy ops (occBinds ops nodeName (cs ++ [c]) nm))
                (reg256 (clusterNames nodeName cs))
            rw [← hval]
            exact map_set_posOf _ _ (reg256_nodup _) hmem
              (fun x hx hxa => (congrArg (retainPolicy ops) (hocc_eq x hx hxa)).symm)
          · rw [hD, List.filter_append, hfilterc, List.append_nil]
          · rw [hE, List.map_append, List.flatten_append]
            refine congrArg₂ (· ++ ·) rfl ?_
            simp [hmem]
        · rw [if_neg hz]
          refine ⟨hA, hB, ?_, ?_, ?_, ?_⟩
          · rw [hG, hlinks]
          · rw [hF]
            refine List.map_congr_left fun x hx => ?_
            by_cases hxa : x = nodeName c.link
            · subst hxa
              rw [hocc_a, retainPolicy_append ops _ _ hoccne, if_neg hz]
            · rw [hocc_eq x hx hxa]
          · rw [hD, List.filter_append, hfilterc, List.append_nil]
          · rw [hE, List.map_append, List.flatten_append]
            refine congrArg₂ (· ++ ·) rfl ?_
            simp [hmem]
      · -- new name: register it, or reject it when 256 are registered
        have hlook : lookupBone (processClusters ops nodeName count cs).boneMap
            (nodeName c.link) = none := by
          rw [hA, lookupBone_enumFrom, if_neg hmem]
        unfold processCluster
        rw [hlook]
        by_cases hfull : 255 < (processClusters ops nodeName count cs).nextBoneIndex
        · -- overflow: only a diagnostic, the cluster is dropped
          rw [if_pos hfull]
          have hfolen : 256 ≤ (firstOccurrences (clusterNames nodeName cs)).length := by
            have h1 := reg256_length_le (clusterNames nodeName cs)
            have h2 := List.length_take 256 (firstOccurrences (clusterNames nodeName cs))
            rw [hB] at hfull
            unfold reg256 at h1 hfull
            omega
          have hreg : reg256 (clusterNames nodeName cs ++ [nodeName c.link]) =
              reg256 (clusterNames nodeName cs) := by
            by_cases han : nodeName c.link ∈ clusterNames nodeName cs
            · exact reg256_append_mem han
            · exact reg256_append_full han hfolen
          rw [hreg]
          have hocc_eq : ∀ x ∈ reg256 (clusterNames nodeName cs),
              occBinds ops nodeName (cs ++ [c]) x = occBinds ops nodeName cs x := by
            intro x hx
            refine Eq.trans (occBinds_append ops nodeName cs c x) ?_
            rw [if_neg fun he => hmem (by rwa [← he] at hx), List.append_nil]
          refine ⟨hA, hB, ?_, ?_, ?_, ?_⟩
          · rw [hG]
            exact (List.map_congr_left fun x hx =>
              firstLinkOf_append_of_mem nodeName (mem_of_mem_reg256 hx) c).symm
          · rw [hF]
            exact (List.map_congr_left fun x hx =>
              congrArg (retainPolicy ops) (hocc_eq x hx)).symm
          · rw [hD, List.filter_append, List.map_append]
            refine congrArg₂ (· ++ ·) rfl ?_
            simp [hmem]
          · rw [hE, List.map_append, List.flatten_append]
            simp [hmem]
        · -- below the cap: register the new bone
          rw [if_neg hfull]
          have hlt : (reg256 (clusterNames nodeName cs)).length < 256 := by
            rw [hB] at hfull
            omega
          have hfolt : (firstOccurrences (clusterNames nodeName cs)).length < 256 := by
            have h2 := List.length_take 256 (firstOccurrences (clusterNames nodeName cs))
            unfold reg256 at hlt
            omega
          have hRfo : reg256 (clusterNames nodeName cs) =
              firstOccurrences (clusterNames nodeName cs) := by
            unfold reg256
            exact List.take_of_length_le (by omega)
          have han : nodeName c.link ∉ clusterNames nodeName cs := by
            intro hin
            exact hmem (by rw [hRfo]; exact (mem_firstOccurrences _).mpr hin)
          have hreg : reg256 (clusterNames nodeName cs ++ [nodeName c.link]) =
              reg256 (clusterNames nodeName cs) ++ [nodeName c.link] :=
            reg256_append_new han hfolt
          rw [hreg]
          have hnea : ∀ x ∈ reg256 (clusterNames nodeName cs), x ≠ nodeName c.link := by
            intro x hx he
            have h2 := mem_of_mem_reg256 hx
            rw [he] at h2
            exact han h2
          have hocc_eq : ∀ x ∈ reg256 (clusterNames nodeName cs),
              occBinds ops nodeName (cs ++ [c]) x = occBinds ops nodeName cs x := by
            intro x hx
            refine Eq.trans (occBinds_append ops nodeName cs c x) ?_
            rw [if_neg fun he => hnea x hx he.symm, List.append_nil]
          have hocc0 : occBinds ops nodeName cs (nodeName c.link) = [] := by
            unfold occBinds
            rw [List.filter_eq_nil_iff.mpr ?_]
            · rfl
            · intro x hx
              simp only [decide_eq_true_eq]
              exact fun he => han (List.mem_map.mpr ⟨x, hx, he⟩)
          refine ⟨?_, ?_, ?_, ?_, ?_, ?_⟩
          · rw [hA, hB, enumFrom_append, Nat.zero_add]
          · rw [hB, List.length_append, List.length_singleton]
          · rw [hG, List.map_append]
            refine congrArg₂ (· ++ ·) ?_ ?_
            · exact (List.map_congr_left fun x hx =>
                firstLinkOf_append_of_mem nodeName (mem_of_mem_reg256 hx) c).symm
            · simp only [List.map_cons, List.map_nil]
              rw [firstLinkOf_append_new nodeName han]
          · rw [hF, List.map_append]
            refine congrArg₂ (· ++ ·) ?_ ?_
            · exact (List.map_congr_left fun x hx =>
                congrArg (retainPolicy ops) (hocc_eq x hx)).symm
            · simp only [List.map_cons, List.map_nil]
              rw [occBinds_append, if_pos rfl, hocc0, List.nil_append,
                retainPolicy_singleton]
          · rw [hD, List.filter_append, List.map_append]
            have h1 : List.filter
                (fun c' => decide (nodeName c'.link ∉
                  reg256 (clusterNames nodeName cs) ++ [nodeName c.link])) [c] = [] := by
              simp
            have h2 : List.filter
                (fun c' => decide (nodeName c'.link ∉
                  reg256 (clusterNames nodeName cs) ++ [nodeName c.link])) cs =
                List.filter
                  (fun c' => decide (nodeName c'.link ∉
                    reg256 (clusterNames nodeName cs))) cs := by
              refine List.filter_congr fun c' hc' => ?_
              refine decide_eq_decide.mpr ?_
              have hcn : nodeName c'.link ≠ nodeName c.link := by
                intro he
                exact han (by rw [← he]; exact List.mem_map.mpr ⟨c', hc', rfl⟩)
              simp only [List.mem_append, List.mem_singleton]
              tauto
            rw [h1, h2, List.map_nil, List.append_nil]
          · rw [hE, List.map_append, List.flatten_append]
            refine congrArg₂ (· ++ ·) ?_ ?_
            · refine congrArg List.flatten (List.map_congr_left fun c' hc' => ?_)
              have hcn : nodeName c'.link ≠ nodeName c.link := by
                intro he
                exact han (by rw [← he]; exact List.mem_map.mpr ⟨c', hc', rfl⟩)
              by_cases hin : nodeName c'.link ∈ reg256 (clusterNames nodeName cs)
              · rw [if_pos hin, if_pos (List.mem_append_left _ hin),
                  posOf_append_left _ hin]
              · rw [if_neg hin, if_neg ?_]
                intro hc
                rcases List.mem_append.mp hc with h | h
                · exact hin h
                · exact hcn (List.mem_singleton.mp h)
            · simp only [List.map_cons, List.map_nil, List.flatten_cons, List.flatten_nil]
              rw [if_pos (List.mem_append_right _ (List.mem_singleton_self _)),
                posOf_append_self hmem, List.append_nil, hB]

/-- C6: bone indices are assigned on first encounter of each distinct
bone name in cluster-scan order (the name→index map enumerates the
first occurrences with indices 0, 1, ...); at most 256 distinct names
are registered; every occurrence of a name beyond the registered 256
contributes exactly one diagnostic and nothing else — in particular
its influences are dropped, not redistributed — while the clusters of
registered names are all processed normally. -/
theorem c6_bone_registration {Name M : Type} [DecidableEq Name] [Inhabited M]
    (ops : MatOps M) (nodeName : ℕ → Name) (count : ℕ) (cs : List (Cluster M)) :
    (processClusters ops nodeName count cs).boneMap =
        enumFrom 0 (reg256 (clusterNames nodeName cs)) ∧
    (processClusters ops nodeName count cs).nextBoneIndex =
        (reg256 (clusterNames nodeName cs)).length ∧
    (processClusters ops nodeName count cs).nextBoneIndex ≤ 256 ∧
    (processClusters ops nodeName count cs).diags =
        (cs.filter (fun c => nodeName c.link ∉ reg256 (clusterNames nodeName cs))).map
          (fun c => nodeName c.link) ∧
    (processClusters ops nodeName count cs).cpPush =
        (cs.map (fun c =>
          if nodeName c.link ∈ reg256 (clusterNames nodeName cs) then
            pushInfl count (posOf (nodeName c.link) (reg256 (clusterNames nodeName cs)))
              c.infl
          else [])).flatten := by
  obtain ⟨hA, hB, _, _, hD, hE⟩ := processClusters_char ops nodeName count cs
  exact ⟨hA, hB, by rw [hB]; exact reg256_length_le _, hD, hE⟩

/-- C7: for every registered bone name, the retained mesh-space bind
transform (each sample computed as
`linkBindGlobal * inverse(meshBindGlobal)`) is the first-computed
value, except that while the currently stored translation is exactly
the zero vector the next cluster's value overwrites it; equivalently
the retained value is the first computed sample with nonzero
translation, or the last sample when every translation is zero. -/
theorem c7_bind_matrix_retention {Name M : Type} [DecidableEq Name] [Inhabited M]
    (ops : MatOps M) (nodeName : ℕ → Name) (count : ℕ) (cs : List (Cluster M))
    (nm : Name) (k : ℕ)
    (hreg : lookupBone (processClusters ops nodeName count cs).boneMap nm = some k) :
    (processClusters ops nodeName count cs).boneBind.getD k default =
      retainPolicy ops (occBinds ops nodeName cs nm) := by
  obtain ⟨hA, _, _, hF, _, _⟩ := processClusters_char ops nodeName count cs
  rw [hA, lookupBone_enumFrom] at hreg
  by_cases hmem : nm ∈ reg256 (clusterNames nodeName cs)
  · rw [if_pos hmem] at hreg
    injection hreg with h
    have hk : k = posOf nm (reg256 (clusterNames nodeName cs)) := by omega
    subst hk
    rw [hF]
    exact getD_map_posOf _ _ hmem
  · rw [if_neg hmem] at hreg
    cases hreg

/-- Matrix operations for the C7 witness: `M := Bool`, translation
nonzero iff `true`. -/
def c7ops : MatOps Bool :=
  ⟨fun a b => a || b, fun b => b, fun b => if b then ⟨1, 0, 0⟩ else vzero3⟩

/-- Two clusters for the same bone (name 5): the first computes a
bind matrix with zero translation, the second a nonzero one. -/
def c7cs : List (Cluster Bool) :=
  [⟨5, false, false, []⟩, ⟨5, true, false, []⟩]

/-- Witness for C7: bone 5 is registered at index 0; its first sample
has zero translation, so the second sample overwrites it, matching the
retention policy. -/
theorem c7_bind_matrix_retention_witness :
    lookupBone (processClusters c7ops id 0 c7cs).boneMap 5 = some 0 ∧
    (processClusters c7ops id 0 c7cs).boneBind.getD 0 default =
      retainPolicy c7ops (occBinds c7ops id c7cs 5) ∧
    (processClusters c7ops id 0 c7cs).boneBind.getD 0 default = true :=
  ⟨by decide, c7_bind_matrix_retention c7ops id 0 c7cs 5 0 (by decide), by decide⟩

/-! ### Bone hierarchy (`ReadSkin`, lines 284-309, parent resolution)

The scene graph is modelled by a parent map on node ids; a finite
(acyclic) scene is captured by the hypothesis that a parent's id is
smaller than its child's. -/

/-- Upward walk over the node-parent chain (lines 296-308): starting
from the parent of `n`, find the first ancestor whose name is a
registered bone.  `fuel` bounds the recursion (with id-decreasing
parents, `n + 1` steps always suffice). -/
def findBoneAncestor {Name : Type} [DecidableEq Name] (parent : ℕ → Option ℕ)
    (nodeName : ℕ → Name) (bmap : List (Name × ℕ)) : ℕ → ℕ → Option ℕ
  | 0, _ => none
  | fuel + 1, n =>
      match parent n with
      | none => none
      | some p =>
          match lookupBone bmap (nodeName p) with
          | some k => some k
          | none => findBoneAncestor parent nodeName bmap fuel p

/-- Resolution of `bone.parentIndex` for the bone whose link node is `node`:
the found ancestor's bone index, or `-1`. -/
def parentIndexOf {Name : Type} [DecidableEq Name] (parent : ℕ → Option ℕ)
    (nodeName : ℕ → Name) (bmap : List (Name × ℕ)) (node : ℕ) : ℤ :=
  match findBoneAncestor parent nodeName bmap (node + 1) node with
  | some k => (k : ℤ)
  | none => -1

/-- The parent indices of all bones produced by the scan, in bone
index order. -/
def boneParents {Name M : Type} [DecidableEq Name] [Inhabited M] (ops : MatOps M)
    (nodeName : ℕ → Name) (parent : ℕ → Option ℕ) (count : ℕ)
    (cs : List (Cluster M)) : List ℤ :=
  (processClusters ops nodeName count cs).boneNodes.map
    (parentIndexOf parent nodeName (processClusters ops nodeName count cs).boneMap)

/-- Iterated (`j`-fold) application of the node-parent map. -/
def parIter (parent : ℕ → Option ℕ) : ℕ → ℕ → Option ℕ
  | 0, n => some n
  | j + 1, n =>
      match parent n with
      | none => none
      | some p => parIter parent j p

/-- Strict ancestry: `a` is an ancestor of `n` in the node-parent chain. -/
def IsAncestor (parent : ℕ → Option ℕ) (a n : ℕ) : Prop :=
  ∃ j, 0 < j ∧ parIter parent j n = some a

/-- One step of following `parentIndex` through the bone list:
valid indices step to their parent entry, everything else (including
`-1`) maps to `-1`. -/
def followParent (parents : List ℤ) (x : ℤ) : ℤ :=
  if 0 ≤ x ∧ x.toNat < parents.length then parents.getD x.toNat (-1) else -1

theorem parIter_lt (parent : ℕ → Option ℕ) (hpar : ∀ n m, parent n = some m → m < n) :
    ∀ (j n a : ℕ), 0 < j → parIter parent j n = some a → a < n
  | 0, _, _, h0, _ => absurd h0 (lt_irrefl 0)
  | j + 1, n, a, _, hit => by
      rcases hp : parent n with _ | p
      · simp [parIter, hp] at hit
      · simp only [parIter, hp] at hit
        rcases Nat.eq_zero_or_pos j with rfl | hj
        · simp only [parIter, Option.some.injEq] at hit
          exact hit ▸ hpar n p hp
        · exact lt_trans (parIter_lt parent hpar j p a hj hit) (hpar n p hp)

theorem isAncestor_lt {parent : ℕ → Option ℕ}
    (hpar : ∀ n m, parent n = some m → m < n) {a n : ℕ}
    (h : IsAncestor parent a n) : a < n := by
  obtain ⟨j, hj, hit⟩ := h
  exact parIter_lt parent hpar j n a hj hit

/-- Soundness of the upward walk: a successful find returns the bone
index of some strict ancestor's registered name. -/
theorem findBoneAncestor_sound {Name : Type} [DecidableEq Name] (parent : ℕ → Option ℕ)
    (nodeName : ℕ → Name) (bmap : List (Name × ℕ)) :
    ∀ (fuel n : ℕ) {k : ℕ}, findBoneAncestor parent nodeName bmap fuel n = some k →
      ∃ p, IsAncestor parent p n ∧ lookupBone bmap (nodeName p) = some k
  | 0, n, k, h => by simp [findBoneAncestor] at h
  | fuel + 1, n, k, h => by
      rcases hp : parent n with _ | p
      · simp [findBoneAncestor, hp] at h
      · simp only [findBoneAncestor, hp] at h
        rcases hl : lookupBone bmap (nodeName p) with _ | k2
        · rw [hl] at h
          obtain ⟨q, hq, hlq⟩ := findBoneAncestor_sound parent nodeName bmap fuel p h
          obtain ⟨j, hj0, hjit⟩ := hq
          refine ⟨q, ⟨j + 1, by omega, ?_⟩, hlq⟩
          simp [parIter, hp, hjit]
        · rw [hl] at h
          injection h with h2
          subst h2
          exact ⟨p, ⟨1, one_pos, by simp [parIter, hp]⟩, hl⟩

theorem nodeName_firstLinkOf {Name M : Type} [DecidableEq Name] (nodeName : ℕ → Name)
    {cs : List (Cluster M)} {nm : Name} (h : nm ∈ clusterNames nodeName cs) :
    nodeName (firstLinkOf nodeName cs nm) = nm := by
  unfold firstLinkOf
  rcases hf : cs.find? (fun c' => decide (nodeName c'.link = nm)) with _ | x
  · exfalso
    rcases List.mem_map.mp h with ⟨c', hc', he⟩
    have := List.find?_eq_none.mp hf c' hc'
    simp only [decide_eq_true_eq] at this
    exact this he
  · rw [hf]
    have := List.find?_some hf
    simpa using this

theorem getD_map_lt {α β : Type} (f : α → β) (l : List α) (d : β) (d0 : α) {i : ℕ}
    (h : i < l.length) : (l.map f).getD i d = f (l.getD i d0) := by
  rw [List.getD_eq_getElem _ _ (by simpa using h), List.getD_eq_getElem _ _ h,
    List.getElem_map]

theorem length_filter_mono {α : Type} (p q : α → Bool) :
    ∀ (l : List α), (∀ x ∈ l, q x → p x) →
      (l.filter q).length ≤ (l.filter p).length
  | [], _ => le_refl _
  | x :: l, h => by
      have IH := length_filter_mono p q l fun y hy => h y (List.mem_cons_of_mem x hy)
      by_cases hq : q x
      · rw [List.filter_cons_of_pos hq, List.filter_cons_of_pos (h x (List.mem_cons_self x l) hq)]
        simpa using IH
      · rw [List.filter_cons_of_neg (by simpa using hq)]
        by_cases hp : p x
        · rw [List.filter_cons_of_pos hp]
          simp only [List.length_cons]
          omega
        · rw [List.filter_cons_of_neg (by simpa using hp)]
          exact IH

theorem length_filter_lt {α : Type} (p q : α → Bool) :
    ∀ (l : List α), (∀ x ∈ l, q x → p x) → ∀ a ∈ l, p a → ¬ q a = true →
      (l.filter q).length < (l.filter p).length
  | [], _, a, ha, _, _ => absurd ha (List.not_mem_nil a)
  | x :: l, h, a, ha, hpa, hqa => by
      by_cases hq : q x
      · have hxa : x ≠ a := fun he => hqa (he ▸ hq)
        have ha' : a ∈ l := by
          rcases List.mem_cons.mp ha with h1 | h1
          · exact absurd h1.symm hxa
          · exact h1
        rw [List.filter_cons_of_pos hq,
          List.filter_cons_of_pos (h x (List.mem_cons_self x l) hq)]
        simp only [List.length_cons]
        have := length_filter_lt p q l (fun y hy => h y (List.mem_cons_of_mem x hy))
          a ha' hpa hqa
        omega
      · rw [List.filter_cons_of_neg (by simpa using hq)]
        rcases List.mem_cons.mp ha with h1 | h1
        · subst h1
          rw [List.filter_cons_of_pos hpa]
          simp only [List.length_cons]
          have := length_filter_mono p q l fun y hy => h y (List.mem_cons_of_mem a hy)
          omega
        · by_cases hp : p x
          · rw [List.filter_cons_of_pos hp]
            simp only [List.length_cons]
            have := length_filter_lt p q l (fun y hy => h y (List.mem_cons_of_mem x hy))
              a h1 hpa hqa
            omega
          · rw [List.filter_cons_of_neg (by simpa using hp)]
            exact length_filter_lt p q l (fun y hy => h y (List.mem_cons_of_mem x hy))
              a h1 hpa hqa

/-- Termination bound for following `parentIndex`: if every valid
entry is `-1` or a valid index whose node id strictly decreases, then
from any bone, `boneCount` steps reach `-1`. -/
theorem followParent_terminates (parents : List ℤ) (nodes : List ℕ)
    (hlen : parents.length = nodes.length)
    (hstep : ∀ bi, bi < nodes.length →
      parents.getD bi (-1) = -1 ∨
        ∃ k, k < nodes.length ∧ parents.getD bi (-1) = (k : ℤ) ∧
          nodes.getD k 0 < nodes.getD bi 0) :
    ∀ bi, bi < nodes.length →
      (followParent parents)^[nodes.length] (bi : ℤ) = -1 := by
  have hneg : ∀ k, (followParent parents)^[k] (-1) = -1 := by
    intro k
    induction k with
    | zero => rfl
    | succ k ih =>
        rw [Function.iterate_succ_apply]
        have h1 : followParent parents (-1) = -1 := by
          unfold followParent
          rw [if_neg]
          intro hc
          have := hc.1
          omega
        rw [h1, ih]
  have main : ∀ k, ∀ x, x < nodes.length →
      (nodes.filter (fun nd => decide (nd ≤ nodes.getD x 0))).length ≤ k →
      (followParent parents)^[k] (x : ℤ) = -1 := by
    intro k
    induction k with
    | zero =>
        intro x hx hmu
        exfalso
        have hmem : nodes.getD x 0 ∈ nodes := by
          rw [List.getD_eq_getElem _ _ hx]
          exact List.getElem_mem hx
        have : nodes.getD x 0 ∈
            nodes.filter (fun nd => decide (nd ≤ nodes.getD x 0)) :=
          List.mem_filter.mpr ⟨hmem, by simp⟩
        have := List.length_pos_of_mem this
        omega
    | succ k ih =>
        intro x hx hmu
        rw [Function.iterate_succ_apply]
        have hcond : 0 ≤ (x : ℤ) ∧ ((x : ℤ)).toNat < parents.length := by
          refine ⟨Int.natCast_nonneg x, ?_⟩
          rw [hlen]
          simpa using hx
        have hfx : followParent parents (x : ℤ) = parents.getD x (-1) := by
          unfold followParent
          rw [if_pos hcond]
          simp
        rw [hfx]
        rcases hstep x hx with h1 | ⟨k2, hk2, hval, hdec⟩
        · rw [h1, hneg]
        · rw [hval]
          refine ih k2 hk2 ?_
          have hlt := length_filter_lt
            (fun nd => decide (nd ≤ nodes.getD x 0))
            (fun nd => decide (nd ≤ nodes.getD k2 0)) nodes
            (fun y _ hy => by
              simp only [decide_eq_true_eq] at hy ⊢
              omega)
            (nodes.getD x 0)
            (by rw [List.getD_eq_getElem _ _ hx]; exact List.getElem_mem hx)
            (by simp)
            (by simp only [decide_eq_true_eq]; omega)
          omega
  intro bi hbi
  refine main nodes.length bi hbi ?_
  simpa using List.length_filter_le _ nodes

/-- C5 (amended): for every bone, parentIndex is either -1 or the
index of a registered bone — not necessarily an earlier-registered
one — whose link node is a strict ancestor of this bone's link node in
the external node-parent chain (walking upward until a registered bone
name is found), provided the scene's node-parent map is well-founded
(parent ids decrease) and node names are unique; and under the same
hypotheses, repeatedly following parentIndex from any bone reaches -1
within at most (bone count) steps. -/
theorem c5_bone_hierarchy_amended {Name M : Type} [DecidableEq Name] [Inhabited M]
    (ops : MatOps M) (nodeName : ℕ → Name) (parent : ℕ → Option ℕ) (count : ℕ)
    (cs : List (Cluster M))
    (hpar : ∀ n m, parent n = some m → m < n)
    (hinj : Function.Injective nodeName) :
    (∀ bi, bi < (processClusters ops nodeName count cs).nextBoneIndex →
      ((boneParents ops nodeName parent count cs).getD bi (-1) = -1 ∨
        ∃ k, k < (processClusters ops nodeName count cs).nextBoneIndex ∧
          (boneParents ops nodeName parent count cs).getD bi (-1) = (k : ℤ) ∧
          IsAncestor parent
            ((processClusters ops nodeName count cs).boneNodes.getD k 0)
            ((processClusters ops nodeName count cs).boneNodes.getD bi 0))) ∧
    (∀ bi, bi < (processClusters ops nodeName count cs).nextBoneIndex →
      (followParent (boneParents ops nodeName parent count cs))^[
          (processClusters ops nodeName count cs).nextBoneIndex] (bi : ℤ) = -1) := by
  obtain ⟨hA, hB, hG, _, _, _⟩ := processClusters_char ops nodeName count cs
  have hlenN : (processClusters ops nodeName count cs).boneNodes.length =
      (reg256 (clusterNames nodeName cs)).length := by
    rw [hG]; simp
  have hlenP : (boneParents ops nodeName parent count cs).length =
      (processClusters ops nodeName count cs).boneNodes.length := by
    unfold boneParents; simp
  have hstep : ∀ bi, bi < (processClusters ops nodeName count cs).boneNodes.length →
      ((boneParents ops nodeName parent count cs).getD bi (-1) = -1 ∨
        ∃ k, k < (processClusters ops nodeName count cs).boneNodes.length ∧
          (boneParents ops nodeName parent count cs).getD bi (-1) = (k : ℤ) ∧
          IsAncestor parent
            ((processClusters ops nodeName count cs).boneNodes.getD k 0)
            ((processClusters ops nodeName count cs).boneNodes.getD bi 0)) := by
    intro bi hbi
    have hget : (boneParents ops nodeName parent count cs).getD bi (-1) =
        parentIndexOf parent nodeName (processClusters ops nodeName count cs).boneMap
          ((processClusters ops nodeName count cs).boneNodes.getD bi 0) := by
      unfold boneParents
      exact getD_map_lt _ _ _ 0 hbi
    rw [hget]
    unfold parentIndexOf
    rcases hfind : findBoneAncestor parent nodeName
        (processClusters ops nodeName count cs).boneMap
        ((processClusters ops nodeName count cs).boneNodes.getD bi 0 + 1)
        ((processClusters ops nodeName count cs).boneNodes.getD bi 0) with _ | k
    · exact Or.inl rfl
    · obtain ⟨p, hanc, hlk⟩ := findBoneAncestor_sound parent nodeName _ _ _ hfind
      rw [hA, lookupBone_enumFrom] at hlk
      by_cases hmem : nodeName p ∈ reg256 (clusterNames nodeName cs)
      · rw [if_pos hmem] at hlk
        injection hlk with hlk2
        have hkpos : k = posOf (nodeName p) (reg256 (clusterNames nodeName cs)) := by
          omega
        have hklt : k < (reg256 (clusterNames nodeName cs)).length := by
          rw [hkpos]
          exact posOf_lt_length hmem
        refine Or.inr ⟨k, by rw [hlenN]; exact hklt, rfl, ?_⟩
        have hnode : (processClusters ops nodeName count cs).boneNodes.getD k 0 = p := by
          rw [hG, getD_map_lt (firstLinkOf nodeName cs) _ 0 (nodeName p) hklt, hkpos,
            getD_posOf (nodeName p) hmem]
          exact hinj (nodeName_firstLinkOf nodeName (mem_of_mem_reg256 hmem))
        rw [hnode]
        exact hanc
      · rw [if_neg hmem] at hlk
        cases hlk
  refine ⟨?_, ?_⟩
  · intro bi hbi
    rw [hB] at hbi
    have h := hstep bi (by rw [hlenN]; exact hbi)
    rcases h with h | ⟨k, hk, hv, ha⟩
    · exact Or.inl h
    · exact Or.inr ⟨k, by rw [hB, ← hlenN]; exact hk, hv, ha⟩
  · intro bi hbi
    rw [hB] at hbi
    have hterm := followParent_terminates (boneParents ops nodeName parent count cs)
      (processClusters ops nodeName count cs).boneNodes
      (by rw [hlenP])
      (fun x hx => by
        rcases hstep x hx with h | ⟨k, hk, hv, ha⟩
        · exact Or.inl h
        · exact Or.inr ⟨k, hk, hv, isAncestor_lt hpar ha⟩)
      bi (by rw [hlenN]; exact hbi)
    rw [hB, ← hlenN]
    exact hterm

/-- Trivial matrix operations over `Unit` for the C5 witness and
counterexample (C5 does not involve bind matrices). -/
def c5ops : MatOps Unit := ⟨fun _ _ => (), fun _ => (), fun _ => vzero3⟩

/-- A two-node scene: node 1's parent is node 0. -/
def c5parent : ℕ → Option ℕ := fun n => if n = 1 then some 0 else none

theorem c5parent_dec : ∀ n m, c5parent n = some m → m < n := by
  intro n m h
  unfold c5parent at h
  by_cases hn : n = 1
  · rw [if_pos hn] at h
    injection h with h2
    omega
  · rw [if_neg hn] at h
    cases h

/-- Clusters registering the parent node 0 first, then the child
node 1. -/
def c5cs : List (Cluster Unit) := [⟨0, (), (), []⟩, ⟨1, (), (), []⟩]

/-- Witness for C5 (amended) at the two-bone scene, instantiated at
bone 1 (the child): its parentIndex is resolvable and following
parentIndex reaches -1 within 2 steps. -/
theorem c5_bone_hierarchy_amended_witness :
    ((∀ n m, c5parent n = some m → m < n) ∧ Function.Injective (id : ℕ → ℕ) ∧
      1 < (processClusters c5ops id 0 c5cs).nextBoneIndex) ∧
    ((boneParents c5ops id c5parent 0 c5cs).getD 1 (-1) = -1 ∨
      ∃ k, k < (processClusters c5ops id 0 c5cs).nextBoneIndex ∧
        (boneParents c5ops id c5parent 0 c5cs).getD 1 (-1) = (k : ℤ) ∧
        IsAncestor c5parent
          ((processClusters c5ops id 0 c5cs).boneNodes.getD k 0)
          ((processClusters c5ops id 0 c5cs).boneNodes.getD 1 0)) ∧
    (followParent (boneParents c5ops id c5parent 0 c5cs))^[
        (processClusters c5ops id 0 c5cs).nextBoneIndex] ((1 : ℕ) : ℤ) = -1 :=
  ⟨⟨c5parent_dec, fun _ _ h => h, by decide⟩,
    (c5_bone_hierarchy_amended c5ops id c5parent 0 c5cs c5parent_dec
      (fun _ _ h => h)).1 1 (by decide),
    (c5_bone_hierarchy_amended c5ops id c5parent 0 c5cs c5parent_dec
      (fun _ _ h => h)).2 1 (by decide)⟩

/-- Clusters registering the child node 1 first, then its parent
node 0. -/
def c5cexCs : List (Cluster Unit) := [⟨1, (), (), []⟩, ⟨0, (), (), []⟩]

/-- C5 counterexample: when the child's cluster is scanned before its
parent's, bone 0 (the child) gets parentIndex 1 — a later-registered
bone — so parentIndex is neither -1 nor the index of an
earlier-registered bone. -/
theorem c5_counterexample :
    (boneParents c5ops id c5parent 0 c5cexCs).getD 0 (-1) = 1 ∧
    ¬ ((boneParents c5ops id c5parent 0 c5cexCs).getD 0 (-1) = -1 ∨
        ∃ k : ℕ, k < 0 ∧
          (boneParents c5ops id c5parent 0 c5cexCs).getD 0 (-1) = (k : ℤ)) := by
  refine ⟨by decide, ?_⟩
  rintro (h | ⟨k, hk, _⟩)
  · exact absurd h (by decide)
  · omega

/-! ## Blend-shape extraction (`ReadBlendShapes`, lines 25-131) -/

/-- One target shape of a blend-shape channel: its control points and
the optional per-control-point normal / tangent arrays (present iff
the corresponding geometry element exists with by-control-point
mapping). -/
structure BlendTargetSrc where
  points : List Vec3
  norms : Option (List Vec3)
  tans : Option (List Vec3)

/-- One blend-shape channel: its name and target shapes. -/
structure BlendChannelSrc where
  cname : String
  targets : List BlendTargetSrc

/-- The base mesh's format flags consumed by the extractor. -/
structure ItpFmt where
  hasNormal : Bool
  hasTan : Bool

/-- An extracted blend shape (name, per-shape format flags, delta
buffer). -/
structure ItpBlendShape where
  bname : String
  hasN : Bool
  hasT : Bool
  deltas : List VertexData
deriving DecidableEq

/-- The zero vertex used as the placeholder delta entry. -/
def zeroVertex : VertexData :=
  ⟨vzero3, vzero3, vzero3, [0, 0, 0, 0], [0, 0, 0, 0], ⟨0, 0⟩⟩

/-- The delta vertex computed for control point `i` (lines 93-114):
position delta always, normal / tangent deltas only when both the mesh
and the target expose the channel per control point. -/
def deltaAt (fmt : ItpFmt) (t : BlendTargetSrc) (i : ℕ) (baseVert : VertexData) :
    VertexData :=
  { pos := t.points.getD i vzero3 - baseVert.pos
    norm :=
      if fmt.hasNormal ∧ t.norms.isSome then
        (t.norms.getD []).getD i vzero3 - baseVert.norm
      else vzero3
    tan :=
      if fmt.hasTan ∧ t.tans.isSome then
        (t.tans.getD []).getD i vzero3 - baseVert.tan
      else vzero3
    bones := [0, 0, 0, 0]
    weights := [0, 0, 0, 0]
    uv := ⟨0, 0⟩ }

/-- Broadcast one delta to every vertex index of a control point's map
entry (lines 116-120). -/
def applyDelta (dv : VertexData) (ds : List VertexData) (vis : List ℕ) :
    List VertexData :=
  vis.foldl (fun d vi => d.set vi dv) ds

/-- One control point of the delta loop (lines 89-121): the unchecked
`vertexMap[i][0]` read is modelled as a partial operation — an empty
entry yields `none` (out-of-bounds access in the C++ code). -/
def targetDeltaStep (fmt : ItpFmt) (s : DedupState) (t : BlendTargetSrc)
    (acc : Option (List VertexData)) (i : ℕ) : Option (List VertexData) :=
  match acc with
  | none => none
  | some ds =>
      match (vmapAt s i).head? with
      | none => none
      | some b0 =>
          some (applyDelta (deltaAt fmt t i (s.verts.getD b0 zeroVertex)) ds (vmapAt s i))

/-- The delta buffer of one target: sized to the vertex buffer
(`bs.deltas.resize(out->verts.size())`, line 88) and filled per
control point. -/
def targetDeltas (fmt : ItpFmt) (s : DedupState) (baseCount : ℕ) (t : BlendTargetSrc) :
    Option (List VertexData) :=
  (List.range baseCount).foldl (targetDeltaStep fmt s t)
    (some (List.replicate s.verts.length zeroVertex))

/-- The blend shape emitted for a matching target (lines 70-123):
named after the channel, with `_target<N>` appended when the channel
has several targets. -/
def buildShape (fmt : ItpFmt) (s : DedupState) (baseCount : ℕ) (ch : BlendChannelSrc)
    (ti : ℕ) (t : BlendTargetSrc) : ItpBlendShape :=
  { bname := ch.cname ++ (if 1 < ch.targets.length then "_target" ++ toString ti else "")
    hasN := fmt.hasNormal && t.norms.isSome
    hasT := fmt.hasTan && t.tans.isSome
    deltas := (targetDeltas fmt s baseCount t).getD [] }

/-- Processing the targets of one channel (lines 54-128): a target
whose control-point count differs from the base count is skipped with
one diagnostic (modelled as the (channel name, target ordinal) pair)
and no partial output; other targets append their blend shape. -/
def channelStep (fmt : ItpFmt) (s : DedupState) (baseCount : ℕ) (ch : BlendChannelSrc)
    (acc : Option (List ItpBlendShape × List (String × ℕ))) (p : ℕ × BlendTargetSrc) :
    Option (List ItpBlendShape × List (String × ℕ)) :=
  match acc with
  | none => none
  | some bd =>
      if p.2.points.length ≠ baseCount then some (bd.1, bd.2 ++ [(ch.cname, p.1)])
      else
        match targetDeltas fmt s baseCount p.2 with
        | none => none
        | some ds =>
            some (bd.1 ++ [{ buildShape fmt s baseCount ch p.1 p.2 with deltas := ds }],
              bd.2)

def readChannel (fmt : ItpFmt) (s : DedupState) (baseCount : ℕ) (ch : BlendChannelSrc) :
    Option (List ItpBlendShape × List (String × ℕ)) :=
  ch.targets.enum.foldl (channelStep fmt s baseCount ch) (some ([], []))

/-- Accumulation of one channel's output into the mesh's. -/
def meshChannelStep (fmt : ItpFmt) (s : DedupState) (baseCount : ℕ)
    (acc : Option (List ItpBlendShape × List (String × ℕ))) (ch : BlendChannelSrc) :
    Option (List ItpBlendShape × List (String × ℕ)) :=
  match acc with
  | none => none
  | some bd =>
      match readChannel fmt s baseCount ch with
      | none => none
      | some bd2 => some (bd.1 ++ bd2.1, bd.2 ++ bd2.2)

/-- The blend-shape pass (lines 25-131): nothing at all is emitted for
a mesh with zero control points (line 36); otherwise every channel's
targets are processed in order. -/
def readBlendShapes (fmt : ItpFmt) (s : DedupState) (baseCount : ℕ)
    (channels : List BlendChannelSrc) :
    Option (List ItpBlendShape × List (String × ℕ)) :=
  if baseCount = 0 then some ([], [])
  else channels.foldl (meshChannelStep fmt s baseCount) (some ([], []))

theorem applyDelta_length (dv : VertexData) :
    ∀ (vis : List ℕ) (ds : List VertexData), (applyDelta dv ds vis).length = ds.length
  | [], _ => rfl
  | vi :: vis, ds => by
      have h := applyDelta_length dv vis (ds.set vi dv)
      simp only [applyDelta, List.foldl_cons] at h ⊢
      rw [h, List.length_set]

/-- When every control point below `baseCount` has a non-empty map
entry, the delta loop succeeds and keeps the buffer at vertex-buffer
length. -/
theorem targetDeltas_some (fmt : ItpFmt) (s : DedupState) (t : BlendTargetSrc)
    {baseCount : ℕ} (hvm : ∀ i, i < baseCount → vmapAt s i ≠ []) :
    ∃ ds, targetDeltas fmt s baseCount t = some ds ∧ ds.length = s.verts.length := by
  have main : ∀ (idxs : List ℕ), (∀ i ∈ idxs, vmapAt s i ≠ []) →
      ∀ (ds : List VertexData), ds.length = s.verts.length →
      ∃ ds2, idxs.foldl (targetDeltaStep fmt s t) (some ds) = some ds2 ∧
        ds2.length = s.verts.length := by
    intro idxs
    induction idxs with
    | nil =>
        intro _ ds h
        exact ⟨ds, rfl, h⟩
    | cons i idxs ih =>
        intro hvm2 ds hds
        rcases hh : (vmapAt s i).head? with _ | b0
        · exact absurd (List.head?_eq_none_iff.mp hh)
            (hvm2 i (List.mem_cons_self i idxs))
        · rw [List.foldl_cons]
          have hstep : targetDeltaStep fmt s t (some ds) i =
              some (applyDelta (deltaAt fmt t i (s.verts.getD b0 zeroVertex)) ds
                (vmapAt s i)) := by
            simp [targetDeltaStep, hh]
          rw [hstep]
          exact ih (fun j hj => hvm2 j (List.mem_cons_of_mem i hj)) _
            (by rw [applyDelta_length]; exact hds)
  have h := main (List.range baseCount) (fun i hi => hvm i (List.mem_range.mp hi))
    (List.replicate s.verts.length zeroVertex) (List.length_replicate _ _)
  simpa [targetDeltas] using h

/-- One channel's targets: the mismatched ones each add exactly one
diagnostic and nothing else; the matching ones append their blend
shapes, in order. -/
theorem readChannel_char (fmt : ItpFmt) (s : DedupState) {baseCount : ℕ}
    (hvm : ∀ i, i < baseCount → vmapAt s i ≠ []) (ch : BlendChannelSrc) :
    readChannel fmt s baseCount ch =
      some ((ch.targets.enum.filter (fun p => p.2.points.length = baseCount)).map
          (fun p => buildShape fmt s baseCount ch p.1 p.2),
        (ch.targets.enum.filter (fun p => ¬ p.2.points.length = baseCount)).map
          (fun p => (ch.cname, p.1))) := by
  have main : ∀ (ps : List (ℕ × BlendTargetSrc)) (bss : List ItpBlendShape)
      (dgs : List (String × ℕ)),
      ps.foldl (channelStep fmt s baseCount ch) (some (bss, dgs)) =
        some (bss ++ (ps.filter (fun p => p.2.points.length = baseCount)).map
            (fun p => buildShape fmt s baseCount ch p.1 p.2),
          dgs ++ (ps.filter (fun p => ¬ p.2.points.length = baseCount)).map
            (fun p => (ch.cname, p.1))) := by
    intro ps
    induction ps with
    | nil =>
        intro bss dgs
        simp
    | cons p ps ih =>
        intro bss dgs
        rw [List.foldl_cons]
        by_cases hmatch : p.2.points.length = baseCount
        · obtain ⟨ds, hds, _⟩ := targetDeltas_some fmt s p.2 hvm
          have hbs : { buildShape fmt s baseCount ch p.1 p.2 with deltas := ds } =
              buildShape fmt s baseCount ch p.1 p.2 := by
            simp [buildShape, hds]
          have hstep : channelStep fmt s baseCount ch (some (bss, dgs)) p =
              some (bss ++ [buildShape fmt s baseCount ch p.1 p.2], dgs) := by
            simp [channelStep, hmatch, hds, hbs]
          rw [hstep, ih,
            List.filter_cons_of_pos (by simpa using hmatch),
            List.filter_cons_of_neg (by simpa using hmatch)]
          simp [List.append_assoc]
        · have hstep : channelStep fmt s baseCount ch (some (bss, dgs)) p =
              some (bss, dgs ++ [(ch.cname, p.1)]) := by
            simp [channelStep, hmatch]
          rw [hstep, ih,
            List.filter_cons_of_neg (by simpa using hmatch),
            List.filter_cons_of_pos (by simpa using hmatch)]
          simp [List.append_assoc]
  simpa [readChannel] using main ch.targets.enum [] []

/-- C8 (amended): on a base mesh with at least one control point whose
corner pass left every control point's map entry non-empty (otherwise
the extractor performs the out-of-bounds access of the unchecked
`vertexMap[i][0]` read), every blend target whose control-point count
differs from the base count is skipped with exactly one diagnostic and
no partial output, all remaining targets are still processed in order,
and every matching target contributes a blend shape whose delta buffer
has the same length as the vertex buffer.  (On a mesh with zero
control points nothing is emitted at all — even for matching targets,
and without diagnostics for mismatched ones.) -/
theorem c8_blend_topology (fmt : ItpFmt) (s : DedupState) (baseCount : ℕ)
    (channels : List BlendChannelSrc) (h0 : 0 < baseCount)
    (hvm : ∀ i, i < baseCount → vmapAt s i ≠ []) :
    readBlendShapes fmt s baseCount channels =
      some ((channels.map (fun ch =>
          (ch.targets.enum.filter (fun p => p.2.points.length = baseCount)).map
            (fun p => buildShape fmt s baseCount ch p.1 p.2))).flatten,
        (channels.map (fun ch =>
          (ch.targets.enum.filter (fun p => ¬ p.2.points.length = baseCount)).map
            (fun p => (ch.cname, p.1)))).flatten) ∧
    ∀ ch ∈ channels, ∀ p ∈ ch.targets.enum, p.2.points.length = baseCount →
      (buildShape fmt s baseCount ch p.1 p.2).deltas.length = s.verts.length := by
  constructor
  · unfold readBlendShapes
    rw [if_neg (by omega)]
    have main : ∀ (chs : List BlendChannelSrc) (bss : List ItpBlendShape)
        (dgs : List (String × ℕ)),
        chs.foldl (meshChannelStep fmt s baseCount) (some (bss, dgs)) =
          some (bss ++ (chs.map (fun ch =>
              (ch.targets.enum.filter (fun p => p.2.points.length = baseCount)).map
                (fun p => buildShape fmt s baseCount ch p.1 p.2))).flatten,
            dgs ++ (chs.map (fun ch =>
              (ch.targets.enum.filter (fun p => ¬ p.2.points.length = baseCount)).map
                (fun p => (ch.cname, p.1)))).flatten) := by
      intro chs
      induction chs with
      | nil =>
          intro bss dgs
          simp
      | cons ch chs ih =>
          intro bss dgs
          rw [List.foldl_cons]
          have hstep : meshChannelStep fmt s baseCount (some (bss, dgs)) ch =
              some (bss ++ (ch.targets.enum.filter
                  (fun p => p.2.points.length = baseCount)).map
                  (fun p => buildShape fmt s baseCount ch p.1 p.2),
                dgs ++ (ch.targets.enum.filter
                  (fun p => ¬ p.2.points.length = baseCount)).map
                  (fun p => (ch.cname, p.1))) := by
            simp [meshChannelStep, readChannel_char fmt s hvm ch]
          rw [hstep, ih]
          simp [List.append_assoc]
    simpa using main channels [] []
  · intro ch _ p _ hmatch
    obtain ⟨ds, hds, hlen⟩ := targetDeltas_some fmt s p.2 hvm
    simp [buildShape, hds, hlen]

/-- A one-corner base mesh for the C8 witness: one vertex, control
point 0's map entry is `[0]`. -/
def c8s : DedupState :=
  (runCorners ⟨false, [], []⟩ emptyDedup [⟨0, vzero3, none, none, none⟩]).1

/-- One channel with a matching target (1 control point) and a
mismatched one (0 control points). -/
def c8chs : List BlendChannelSrc :=
  [⟨"ch", [⟨[⟨1, 2, 3⟩], none, none⟩, ⟨[], none, none⟩]⟩]

/-- Witness for C8 (amended) on the one-vertex mesh: the matching
target yields its blend shape, the mismatched one yields exactly the
diagnostic `("ch", 1)`. -/
theorem c8_blend_topology_witness :
    (0 < 1 ∧ ∀ i, i < 1 → vmapAt c8s i ≠ []) ∧
    readBlendShapes ⟨false, false⟩ c8s 1 c8chs =
      some ((c8chs.map (fun ch =>
          (ch.targets.enum.filter (fun p => p.2.points.length = 1)).map
            (fun p => buildShape ⟨false, false⟩ c8s 1 ch p.1 p.2))).flatten,
        (c8chs.map (fun ch =>
          (ch.targets.enum.filter (fun p => ¬ p.2.points.length = 1)).map
            (fun p => (ch.cname, p.1)))).flatten) :=
  ⟨⟨by decide, fun i hi => by
      have h : i = 0 := by omega
      subst h
      decide⟩,
    (c8_blend_topology ⟨false, false⟩ c8s 1 c8chs (by decide) (fun i hi => by
      have h : i = 0 := by omega
      subst h
      decide)).1⟩

/-- C8 counterexample: on a base mesh with zero control points, a
blend target whose control-point count (1) differs from the base count
(0) produces neither a blend shape nor any diagnostic — the pass
returns before reaching the per-target check — contradicting the claim
that a mismatched target always emits exactly one diagnostic (and,
symmetrically, a matching 0-point target would emit no blend shape at
all). -/
theorem c8_counterexample :
    readBlendShapes ⟨false, false⟩ emptyDedup 0
        [⟨"c", [⟨[vzero3], none, none⟩]⟩] = some ([], []) ∧
    ([vzero3] : List Vec3).length ≠ 0 :=
  ⟨rfl, by decide⟩

end Fbx2Itp
